import Mathlib

/-!
The reactor runtime of `lib/C/reactor.c`.

A shallow embedding of the tagged-time event loop of `reactor.c`
(`__schedule`, `schedule`, `wait_until`, `next`, `process_args`, `initialize`) and theorems
about it.

Conventions of the embedding.

* `instant_t` and `interval_t` are C `long long`.  Signed overflow is undefined in C, so
  the embedding computes over `Int`; the theorems speak about executions in which no
  signed addition or subtraction overflows.
* Pointers to the statically allocated `trigger_t` and `reaction_t` records are natural
  numbers indexing the tables of a `Program`; pointer equality is equality of indices.
* An `event_t` record carries its address `addr`, so that recycled and freshly allocated
  records can be told apart.  The heap position `pos` is private to the queue and omitted.
* Everything the run-time reads from outside (the physical clock, the outcome of
  `nanosleep`, what a reaction body does when it is called) is supplied by a `World`;
  the state counts how many clock readings, sleeps and invocations have been consumed.
* The model is of the single thread that runs `main`; `malloc` and `pqueue_insert` are
  assumed not to fail.
-/

namespace Reactor

/-! ## Data model -/

/-- The C `struct timespec`: seconds and nanoseconds. -/
structure timespec where
  tv_sec : Int
  tv_nsec : Int
deriving DecidableEq, Repr

/-- The constant `BILLION` of `reactor.h` (nanoseconds per second). -/
def BILLION : Int := 1000000000

/-- The largest `long long`. -/
def LLONG_MAX : Int := 9223372036854775807

/-- The expression `ts.tv_sec * BILLION + ts.tv_nsec` that `reactor.c` uses to turn a
clock reading into an `instant_t`. -/
def timespec.ns (ts : timespec) : Int := ts.tv_sec * BILLION + ts.tv_nsec

/-- The fields of `trigger_t` that `reactor.c` reads.  `reactions` is the array
`reactions[0 .. number_of_reactions-1]` of reaction pointers. -/
structure trigger_t where
  reactions : List Nat
  offset : Int
  period : Int
deriving DecidableEq, Repr

/-- The fields of `reaction_t` that `reactor.c` reads.  `output_produced` is the array of
`num_outputs` pointers to boolean flags (a flag is named by a natural number), and
`triggers` the array of `num_outputs` trigger arrays, the `i`-th of length
`triggered_sizes[i]`. -/
structure reaction_t where
  index : Nat
  output_produced : List Nat
  triggers : List (List Nat)
  deadline : Int
  deadline_violation : Option Nat
deriving DecidableEq, Repr

/-- An `event_t` record at address `addr`. -/
structure event_t where
  addr : Nat
  time : Int
  trigger : Nat
deriving DecidableEq, Repr

/-- The static tables built by `__initialize_trigger_objects`. -/
structure Program where
  trigger : Nat → trigger_t
  reaction : Nat → reaction_t

/-- What a reaction body can do to the run-time through the functions and pointers that
are in scope for it: call `schedule`, call `stop`, write an output flag. -/
inductive Action where
  | schedule (trigger : Nat) (extra_delay : Int)
  | stop
  | write (flag : Nat) (value : Bool)
deriving DecidableEq, Repr

/-- One entry of the invocation record: reaction `reaction` was called while
`current_time` was `time`; `violation` tells whether the call was made from the
deadline-violation loop (`true`) or was the call of a reaction popped from the reaction
queue (`false`). -/
structure Call where
  reaction : Nat
  time : Int
  violation : Bool
deriving DecidableEq, Repr

/-- The environment of a run: the successive readings of `clock_gettime`, whether the
`n`-th `nanosleep` returns nonzero, and the actions performed by the `n`-th invocation of
a reaction function (given the reaction invoked). -/
structure World where
  clock : Nat → timespec
  nanosleep : Nat → Bool
  function : Nat → Nat → List Action

/-- The global variables of `reactor.c`, followed by the bookkeeping of the embedding:
`flags` lists the output flags that are currently `true`, `allocated` counts the
`event_t` records obtained from `malloc`, `clock_reads`, `sleeps` and `invocations` count
the calls of `clock_gettime`, `nanosleep` and of reaction functions, `time_steps` counts
the calls of `__start_time_step`, and `log` records the reaction invocations in order. -/
structure State where
  fast : Bool
  current_time : Int
  stop_requested : Bool
  duration : Int
  stop_time : Int
  wait_specified : Bool
  event_q : List event_t
  reaction_q : List Nat
  recycle_q : List event_t
  __handle : Nat
  flags : List Nat
  allocated : Nat
  clock_reads : Nat
  sleeps : Nat
  invocations : Nat
  time_steps : Nat
  log : List Call
deriving DecidableEq, Repr

/-! ## Priority queue -/

/-- Modelled from the spec: the priority queue of `pqueue.c`, which is not among the
sources.  The spec describes a min-heap keyed by a caller-supplied priority accessor
with operations `insert`, `peek`, `pop` and `size`.  The queue is the list of its
elements; `pqueue_pop` removes an element of least priority (the earliest inserted one
among equals) and returns it with the remaining queue, or `none` on an empty queue
(the `NULL` result). -/
def pqueue_pop {α : Type} (pri : α → Int) : List α → Option (α × List α)
  | [] => none
  | x :: xs =>
    match pqueue_pop pri xs with
    | none => some (x, [])
    | some (y, rest) => if pri x ≤ pri y then some (x, xs) else some (y, x :: rest)

/-- Modelled from the spec: `pqueue_peek` of `pqueue.c` returns the element that
`pqueue_pop` would remove, leaving the queue as it is. -/
def pqueue_peek {α : Type} (pri : α → Int) (q : List α) : Option α :=
  (pqueue_pop pri q).map Prod.fst

/-- Modelled from the spec: `pqueue_insert` of `pqueue.c` adds one element. -/
def pqueue_insert {α : Type} (q : List α) (x : α) : List α := q ++ [x]

/-- Modelled from the spec: `pqueue_size` of `pqueue.c`. -/
def pqueue_size {α : Type} (q : List α) : Nat := q.length

/-- Priority of an event (`get_evt_pri`): its time. -/
def get_evt_pri (e : event_t) : Int := e.time

/-- Priority of a reaction (`get_rct_pri`): its index. -/
def get_rct_pri (P : Program) (r : Nat) : Int := ((P.reaction r).index : Int)

/-! ## Scheduling -/

/-- The function `__schedule`: take a record from the recycle queue, or allocate one when
that queue is empty; set its time to `current_time + trigger->offset + delay` and its
trigger; insert it into the event queue; return `__handle++`.  The type `handle_t` is
declared in `reactor.h`, which is not among the sources; following the spec, the handle
is a 64-bit counter. -/
def __schedule (P : Program) (s : State) (trigger : Nat) (delay : Int) : State × Nat :=
  let time := s.current_time + (P.trigger trigger).offset + delay
  match pqueue_pop get_evt_pri s.recycle_q with
  | none =>
    let e : event_t := { addr := s.allocated, time := time, trigger := trigger }
    ({ s with allocated := s.allocated + 1
              event_q := pqueue_insert s.event_q e
              __handle := (s.__handle + 1) % 2 ^ 64 }, s.__handle)
  | some (e, rest) =>
    let e : event_t := { e with time := time, trigger := trigger }
    ({ s with recycle_q := rest
              event_q := pqueue_insert s.event_q e
              __handle := (s.__handle + 1) % 2 ^ 64 }, s.__handle)

/-- The function `schedule`: `__schedule(trigger, trigger->offset + extra_delay)`. -/
def schedule (P : Program) (s : State) (trigger : Nat) (extra_delay : Int) : State × Nat :=
  __schedule P s trigger ((P.trigger trigger).offset + extra_delay)

/-! ## Waiting for physical time -/

/-- The function `wait_until`.  The result is the new state and the returned `int`. -/
def wait_until (w : World) (s : State) (logical_time_ns : Int) : State × Int :=
  let clamp : Bool := decide (s.stop_time > 0 ∧ logical_time_ns > s.stop_time)
  let logical_time_ns : Int := if clamp then s.stop_time else logical_time_ns
  let return_value : Int := if clamp then -1 else 0
  if !s.fast then
    let current_physical_time := w.clock s.clock_reads
    let s := { s with clock_reads := s.clock_reads + 1 }
    let ns_to_wait := logical_time_ns - current_physical_time.ns
    if ns_to_wait ≤ 0 then
      ({ s with current_time := logical_time_ns }, return_value)
    else
      let interrupted := w.nanosleep s.sleeps
      let s := { s with sleeps := s.sleeps + 1 }
      if interrupted then
        let current_physical_time := w.clock s.clock_reads
        let s := { s with clock_reads := s.clock_reads + 1 }
        let current_physical_time_ns := current_physical_time.ns
        if current_physical_time_ns > s.current_time then
          if current_physical_time_ns < logical_time_ns then
            ({ s with current_time := current_physical_time_ns }, -1)
          else
            ({ s with current_time := logical_time_ns }, return_value)
        else
          (s, -1)
      else
        ({ s with current_time := logical_time_ns }, return_value)
  else
    ({ s with current_time := logical_time_ns }, return_value)

/-! ## The tag-advance loop -/

/-- Modelled from the spec: the hook `__start_time_step` is generated code that is not
among the sources; the spec says that it clears the output-produced flags for the new
tag. -/
def __start_time_step (s : State) : State :=
  { s with flags := [], time_steps := s.time_steps + 1 }

/-- The function `stop`. -/
def stop (s : State) : State := { s with stop_requested := true }

/-- The effect of one action of a reaction body. -/
def apply_action (P : Program) (s : State) : Action → State
  | .schedule trigger extra_delay => (schedule P s trigger extra_delay).1
  | .stop => stop s
  | .write flag value =>
    { s with flags := if value then flag :: s.flags else s.flags.filter (fun f => f ≠ flag) }

/-- The call `reaction->function(reaction->self)`: the invocation is recorded in the log
and the actions that the world prescribes for it are carried out in order. -/
def invoke (w : World) (P : Program) (s : State) (reaction : Nat) (violation : Bool) : State :=
  let actions := w.function s.invocations reaction
  let s := { s with invocations := s.invocations + 1
                    log := s.log ++ [{ reaction := reaction, time := s.current_time,
                                       violation := violation }] }
  actions.foldl (apply_action P) s

/-- Why a run of the model stopped without a result: `pqueue_pop(event_q)` returned
`NULL` and the null event was dereferenced, or the fuel given to a loop ran out. -/
inductive Fault where
  | null_event
  | out_of_fuel
deriving DecidableEq, Repr

/-- The loop `for (i < number_of_reactions) pqueue_insert(reaction_q, reactions[i])`. -/
def insert_reactions (P : Program) (s : State) (trigger : Nat) : State :=
  { s with reaction_q := (P.trigger trigger).reactions.foldl pqueue_insert s.reaction_q }

/-- The body of the `do ... while` loop of `next` up to and including the insertion of the
event into the recycle queue. -/
def drain_body (P : Program) (s : State) : Except Fault State :=
  match pqueue_pop get_evt_pri s.event_q with
  | none => .error .null_event
  | some (event, rest) =>
    let s := { s with event_q := rest }
    let s := insert_reactions P s event.trigger
    let s := if (P.trigger event.trigger).period > 0 then
        (__schedule P s event.trigger
          ((P.trigger event.trigger).period - (P.trigger event.trigger).offset)).1
      else s
    let event := { event with time := 0 }
    .ok { s with recycle_q := pqueue_insert s.recycle_q event }

/-- The condition of the `do ... while` loop: `event != NULL && event->time == current_time`
for the event at the head of the event queue. -/
def drain_again (s : State) : Bool :=
  match pqueue_peek get_evt_pri s.event_q with
  | none => false
  | some event => decide (event.time = s.current_time)

/-- The `do ... while` loop of `next`, with fuel bounding the number of iterations. -/
def drain_loop (P : Program) : Nat → State → Except Fault State
  | 0, _ => .error .out_of_fuel
  | fuel + 1, s =>
    match drain_body P s with
    | .error f => .error f
    | .ok s => if drain_again s then drain_loop P fuel s else .ok s

/-- The deadline check made before a reaction body is called. -/
def check_deadline (w : World) (P : Program) (s : State) (reaction : Nat) : State :=
  if (P.reaction reaction).deadline > 0 then
    let current_physical_time := w.clock s.clock_reads
    let s := { s with clock_reads := s.clock_reads + 1 }
    let physical_time := current_physical_time.ns
    if physical_time > s.current_time + (P.reaction reaction).deadline then
      match (P.reaction reaction).deadline_violation with
      | none => s
      | some trigger =>
        (P.trigger trigger).reactions.foldl (fun s r => invoke w P s r true) s
    else s
  else s

/-- The loop over the output slots of a reaction that puts the triggered reactions into
the reaction queue. -/
def propagate_outputs (P : Program) (s : State) (reaction : Nat) : State :=
  ((P.reaction reaction).output_produced.zip (P.reaction reaction).triggers).foldl
    (fun s slot =>
      if slot.1 ∈ s.flags then slot.2.foldl (insert_reactions P) s else s) s

/-- The body of the `while` loop of `next` for the reaction just popped. -/
def reaction_step (w : World) (P : Program) (s : State) (reaction : Nat) : State :=
  let s := check_deadline w P s reaction
  let s := invoke w P s reaction false
  propagate_outputs P s reaction

/-- The `while (pqueue_size(reaction_q) > 0)` loop of `next`, with fuel bounding the number
of iterations. -/
def reaction_loop (w : World) (P : Program) : Nat → State → Except Fault State
  | 0, s => if pqueue_size s.reaction_q > 0 then .error .out_of_fuel else .ok s
  | fuel + 1, s =>
    match pqueue_pop (get_rct_pri P) s.reaction_q with
    | none => .ok s
    | some (reaction, rest) =>
      reaction_loop w P fuel (reaction_step w P { s with reaction_q := rest } reaction)

/-- The part of `next` from `__start_time_step` to the end: drain the events, run the
reactions, and return 0 when `current_time == stop_time` and 1 otherwise. -/
def next_tag (w : World) (P : Program) (fuel : Nat) (s : State) : Except Fault (State × Int) :=
  match drain_loop P fuel (__start_time_step s) with
  | .error f => .error f
  | .ok s =>
    match reaction_loop w P fuel s with
    | .error f => .error f
    | .ok s => .ok (s, if s.current_time = s.stop_time then 0 else 1)

/-- The test made in `next` when `wait_until` returned a negative value: the event now at
the head of the queue is the one seen before the wait (same record, or both `NULL`), and
the stop time has been reached or there is no event. -/
def next_gives_up (s : State) (event : Option event_t) : Bool :=
  let new_event := pqueue_peek get_evt_pri s.event_q
  decide (new_event.map event_t.addr = event.map event_t.addr) &&
    (decide (s.current_time = s.stop_time) || new_event.isNone)

/-- The local variable `next_time` of `next`: the time of the event at the head of the
event queue, or `LLONG_MAX` when there is none. -/
def next_time (s : State) : Int :=
  match pqueue_peek get_evt_pri s.event_q with
  | none => LLONG_MAX
  | some event => event.time

/-- The function `next`.  The result is the new state and the returned `int`, or the
fault that ended the run. -/
def next (w : World) (P : Program) (fuel : Nat) (s : State) : Except Fault (State × Int) :=
  let event := pqueue_peek get_evt_pri s.event_q
  if event.isNone && !s.wait_specified then .ok (s, 0)
  else
    let waited := wait_until w s (next_time s)
    if decide (waited.2 < 0) && next_gives_up waited.1 event then .ok (waited.1, 0)
    else next_tag w P fuel waited.1

/-! ## Notions used in the statements -/

/-- The target that `wait_until` works with after its first `if`: the stop time when a
stop time is set and the requested time lies beyond it, the requested time otherwise. -/
def clamped_target (s : State) (logical_time_ns : Int) : Int :=
  if s.stop_time > 0 ∧ logical_time_ns > s.stop_time then s.stop_time else logical_time_ns

/-- The value of `return_value` in `wait_until` after its first `if`: -1 when the target
was replaced by the stop time, 0 otherwise. -/
def clamp_sentinel (s : State) (logical_time_ns : Int) : Int :=
  if s.stop_time > 0 ∧ logical_time_ns > s.stop_time then -1 else 0

/-- Every event in the event queue has a time that is not before `current_time`. -/
def evt_inv (s : State) : Prop := ∀ e ∈ s.event_q, s.current_time ≤ e.time

instance (s : State) : Decidable (evt_inv s) := by
  unfold evt_inv; infer_instance

/-- The state after at most `n` iterations of the `while` loop of `next`: the loop body
is applied as long as the reaction queue is not empty and `n` is not used up. -/
def reaction_run (w : World) (P : Program) : Nat → State → State
  | 0, s => s
  | n + 1, s =>
    match pqueue_pop (get_rct_pri P) s.reaction_q with
    | none => s
    | some (reaction, rest) =>
      reaction_run w P n (reaction_step w P { s with reaction_q := rest } reaction)

/-- Index of the reaction of a logged call. -/
def Call.index (P : Program) (c : Call) : Nat := (P.reaction c.reaction).index

/-- The logged calls of reactions that were popped from the reaction queue (the calls
made from the deadline-violation loop are left out). -/
def popped_calls (calls : List Call) : List Call := calls.filter (fun c => !c.violation)

/-- During the run of the `while` loop of `next` from state `s`, every reaction that an
iteration adds to the reaction queue has an index strictly greater than the index of the
reaction executed by that iteration. -/
def enqueues_upward (w : World) (P : Program) (s : State) : Prop :=
  ∀ k reaction rest added,
    pqueue_pop (get_rct_pri P) (reaction_run w P k s).reaction_q = some (reaction, rest) →
    (reaction_step w P { reaction_run w P k s with reaction_q := rest } reaction).reaction_q
      = rest ++ added →
    ∀ r ∈ added, (P.reaction reaction).index < (P.reaction r).index

/-- The indices are a topological sort: every reaction reachable through an output slot
of a reaction has a strictly greater index than that reaction. -/
def topo_sorted (P : Program) : Prop :=
  ∀ reaction triggerArray trigger r, triggerArray ∈ (P.reaction reaction).triggers →
    trigger ∈ triggerArray → r ∈ (P.trigger trigger).reactions →
    (P.reaction reaction).index < (P.reaction r).index

/-! ## States, programs and worlds on which the model is run -/

/-- The state given by the initialisers of the global variables of `reactor.c`, with
empty queues. -/
def start_state : State :=
  { fast := false, current_time := 0, stop_requested := false, duration := -1,
    stop_time := 0, wait_specified := false, event_q := [], reaction_q := [],
    recycle_q := [], __handle := 0, flags := [], allocated := 0, clock_reads := 0,
    sleeps := 0, invocations := 0, time_steps := 0, log := [] }

/-- A program with one trigger (offset `offset`, period `period`) bound to one reaction
of index 0 without deadline or outputs. -/
def one_trigger (offset period : Int) : Program :=
  { trigger := fun _ => { reactions := [0], offset := offset, period := period }
    reaction := fun _ => { index := 0, output_produced := [], triggers := [],
                           deadline := 0, deadline_violation := none } }

/-- A program in which trigger `t` is bound to reaction `t` alone, reaction `r` has index
`r`, and reaction 0 has one output slot, with flag 7, that triggers trigger 1. -/
def two_reactions : Program :=
  { trigger := fun t => { reactions := [t], offset := 0, period := 0 }
    reaction := fun r =>
      match r with
      | 0 => { index := 0, output_produced := [7], triggers := [[1]], deadline := 0,
               deadline_violation := none }
      | r + 1 => { index := r + 1, output_produced := [], triggers := [], deadline := 0,
                   deadline_violation := none } }

/-- A world whose clock reads `p` nanoseconds at every reading, whose sleeps are
interrupted exactly when `interrupted` is set, and whose reaction bodies do nothing. -/
def still_world (p : Int) (interrupted : Bool) : World :=
  { clock := fun _ => { tv_sec := 0, tv_nsec := p }
    nanosleep := fun _ => interrupted
    function := fun _ _ => [] }

/-- A world in which the first invocation of a reaction function sets flag 7 and the
later ones do nothing; the clock reads 0 and sleeps are not interrupted. -/
def producing_world : World :=
  { clock := fun _ => { tv_sec := 0, tv_nsec := 0 }
    nanosleep := fun _ => false
    function := fun n _ => if n = 0 then [Action.write 7 true] else [] }

/-- A world in which the first invocation of a reaction function calls
`schedule(trigger 0, 0)` and the later ones do nothing; the clock reads 0 and sleeps are
not interrupted. -/
def rescheduling_world : World :=
  { clock := fun _ => { tv_sec := 0, tv_nsec := 0 }
    nanosleep := fun _ => false
    function := fun n _ => if n = 0 then [Action.schedule 0 0] else [] }

/-- A state at logical time 100 whose event queue holds one event, for trigger 0 at
time 200. -/
def waiting_state : State :=
  { start_state with current_time := 100, allocated := 1
                     event_q := [{ addr := 0, time := 200, trigger := 0 }] }

/-- The state `waiting_state` with a stop time of 180, which lies before the event. -/
def stopping_state : State := { waiting_state with stop_time := 180 }

/-- A state in fast mode at logical time 50 whose event queue holds two events for
trigger 0, at times 100 and 200. -/
def fast_state : State :=
  { start_state with fast := true, current_time := 50, allocated := 2
                     event_q := [{ addr := 0, time := 100, trigger := 0 },
                                 { addr := 1, time := 200, trigger := 0 }] }

/-- The state in which `next` leaves `fast_state` when reaction bodies do nothing: the
event at time 100 has been handled. -/
def fast_state_1 : State :=
  { fast_state with current_time := 100, invocations := 1, time_steps := 1
                    event_q := [{ addr := 1, time := 200, trigger := 0 }]
                    recycle_q := [{ addr := 0, time := 0, trigger := 0 }]
                    log := [{ reaction := 0, time := 100, violation := false }] }

/-- The state in which `next` leaves `fast_state_1` when reaction bodies do nothing: the
event at time 200 has been handled too. -/
def fast_state_2 : State :=
  { fast_state_1 with current_time := 200, invocations := 2, time_steps := 2
                      event_q := []
                      recycle_q := [{ addr := 0, time := 0, trigger := 0 },
                                    { addr := 1, time := 0, trigger := 0 }]
                      log := [{ reaction := 0, time := 100, violation := false },
                              { reaction := 0, time := 200, violation := false }] }

/-! ## Notions and inputs for the deadline check, the return value and the handles -/

/-- The log entries of the calls made by the deadline-violation loop of `next` for the
violation trigger `trigger` while the state is `s`: one call for each reaction of the
trigger, in array order. -/
def violation_calls (P : Program) (s : State) (trigger : Nat) : List Call :=
  (P.trigger trigger).reactions.map
    (fun r => { reaction := r, time := s.current_time, violation := true })

/-- One call of `__schedule(trigger, delay)` (when `internal` is set) or of
`schedule(trigger, delay)`. -/
structure schedule_call where
  internal : Bool
  trigger : Nat
  delay : Int
deriving DecidableEq, Repr

/-- The state after a sequence of calls of `schedule` and `__schedule`, with the handles
they returned, in order. -/
def run_schedule_calls (P : Program) : List schedule_call → State → State × List Nat
  | [], s => (s, [])
  | c :: cs, s =>
    let r := if c.internal then __schedule P s c.trigger c.delay
      else schedule P s c.trigger c.delay
    ((run_schedule_calls P cs r.1).1, r.2 :: (run_schedule_calls P cs r.1).2)

/-- A program in which reaction 0 has a deadline of 10 and the violation trigger 1, which
is bound to the reactions 5 and 6; every other trigger is bound to reaction 0, and no
reaction has outputs. -/
def deadline_program : Program :=
  { trigger := fun t => { reactions := if t = 1 then [5, 6] else [0], offset := 0, period := 0 }
    reaction := fun r => { index := r, output_produced := [], triggers := []
                           deadline := if r = 0 then 10 else 0
                           deadline_violation := if r = 0 then some 1 else none } }

/-! ## Start of a run -/

/-- The function `initialize` of `reactor.c`: the three queues are created empty, the
clock is read, `current_time` is set to the reading, and when a duration has been given
(`duration ≥ 0`) `stop_time` is set to `current_time + duration`.  The hook
`__initialize_trigger_objects` fills the static tables, which are the `Program` here. -/
def initialize_runtime (w : World) (s : State) : State :=
  let physicalStartTime := w.clock s.clock_reads
  let s := { s with event_q := [], reaction_q := [], recycle_q := []
                    clock_reads := s.clock_reads + 1
                    current_time := physicalStartTime.ns }
  if s.duration ≥ 0 then { s with stop_time := s.current_time + s.duration } else s

/-- A world whose clock reads 1700000000 seconds at every reading, whose sleeps are not
interrupted and whose reaction bodies do nothing. -/
def epoch_world : World :=
  { clock := fun _ => { tv_sec := 1700000000, tv_nsec := 0 }
    nanosleep := fun _ => false
    function := fun _ _ => [] }

/-- The globals after `process_args` has seen `-fast`, `-wait` and a `-stop` duration of
`duration` nanoseconds. -/
def fast_wait_state (duration : Int) : State :=
  { start_state with fast := true, wait_specified := true, duration := duration }

/-! ## The event pool -/

/-- The addresses of the event records in the event queue and in the event pool. -/
def event_addrs (s : State) : List Nat := (s.event_q ++ s.recycle_q).map event_t.addr

/-- The addresses in `l` are pairwise different, all below `n`, and there are `n` of
them: they are the addresses of the `n` records allocated so far, each once. -/
def numbered (l : List Nat) (n : Nat) : Prop :=
  l.Nodup ∧ (∀ a ∈ l, a < n) ∧ l.length = n

/-- The event-pool invariant: the number of events in the event queue plus the number in
the event pool is the number of records allocated so far, no record is in the two
queues twice (so none is in both), and the records are those allocated so far (the
model numbers the records in the order of their allocation). -/
def pool_inv (s : State) : Prop :=
  s.event_q.length + s.recycle_q.length = s.allocated ∧
    (event_addrs s).Nodup ∧ ∀ a ∈ event_addrs s, a < s.allocated

instance (s : State) : Decidable (pool_inv s) := by
  unfold pool_inv; infer_instance

/-! ## The events handled by the drain loop -/

/-- The events popped by the `do ... while` loop of `next` when it is run from `s` with
the given fuel, in the order in which they are popped. -/
def drained (P : Program) : Nat → State → List event_t
  | 0, _ => []
  | fuel + 1, s =>
    match pqueue_pop get_evt_pri s.event_q, drain_body P s with
    | some (event, _), .ok s1 =>
      event :: (if drain_again s1 then drained P fuel s1 else [])
    | _, _ => []

/-- A program whose triggers are all bound to reaction 0 and have offset 0; trigger 1 has
period 50 and the others are not periodic. -/
def mixed_periods : Program :=
  { trigger := fun t => { reactions := [0], offset := 0, period := if t = 1 then 50 else 0 }
    reaction := fun _ => { index := 0, output_produced := [], triggers := [],
                           deadline := 0, deadline_violation := none } }

/-- A state at logical time 100 whose event queue holds two events at time 100, the
first for trigger 0 and the second for the periodic trigger 1, with an empty pool. -/
def two_events_state : State :=
  { start_state with fast := true, current_time := 100, allocated := 2
                     event_q := [{ addr := 0, time := 100, trigger := 0 },
                                 { addr := 1, time := 100, trigger := 1 }] }

/-- The state in which the drain loop of `next` ends when `next` is called in
`fast_state`: the event at time 100 is in the pool and its reaction in the reaction
queue. -/
def fast_state_drained : State :=
  { fast_state with current_time := 100, time_steps := 1, reaction_q := [0]
                    event_q := [{ addr := 1, time := 200, trigger := 0 }]
                    recycle_q := [{ addr := 0, time := 0, trigger := 0 }] }

/-! ## Command-line arguments -/

/-- The C library function `strcmp`, as far as `reactor.c` uses it: the result is only
compared with 0, and it is 0 exactly when the two strings are equal. -/
def strcmp (a b : String) : Int := if a = b then 0 else 1

/-- The C library function `strncmp`, as far as `reactor.c` uses it: the result is only
compared with 0, and it is 0 exactly when the two strings agree on their first `n`
characters (or are equal and shorter). -/
def strncmp (a b : String) (n : Nat) : Int :=
  if a.toList.take n = b.toList.take n then 0 else 1

/-- The C library predicate `isspace` in the C locale: space, and the control characters
from horizontal tab to carriage return. -/
def isspace (c : Char) : Bool := decide (c.toNat = 32 ∨ (9 ≤ c.toNat ∧ c.toNat ≤ 13))

/-- The value of the longest run of decimal digits at the head of `cs`, continuing the
value `acc` of the digits already read. -/
def digits_value : List Char → Int → Int
  | [], acc => acc
  | c :: cs, acc =>
    if c.isDigit then digits_value cs (acc * 10 + ((c.toNat - 48 : Nat) : Int)) else acc

/-- The C library function `atoll`: leading white space is skipped, an optional sign is
read, and the digits that follow give the value; the result is 0 when there are no
digits.  (Values outside `long long` are not modelled.) -/
def atoll (str : String) : Int :=
  match str.toList.dropWhile isspace with
  | [] => 0
  | c :: cs =>
    if c = '-' then - digits_value cs 0
    else if c = '+' then digits_value cs 0
    else digits_value (c :: cs) 0

/-- Modelled from the spec: the macros `NSEC`, `USEC`, `MSEC`, `SEC`, `MINUTE`, `HOUR`,
`DAY` and `WEEK` of `reactor.h`, which is not among the sources, turn a number of units
into an interval; the spec counts intervals in nanoseconds. -/
def NSEC (t : Int) : Int := t

/-- Modelled from the spec: microseconds in nanoseconds (see `NSEC`). -/
def USEC (t : Int) : Int := t * 1000

/-- Modelled from the spec: milliseconds in nanoseconds (see `NSEC`). -/
def MSEC (t : Int) : Int := t * 1000000

/-- Modelled from the spec: seconds in nanoseconds (see `NSEC`). -/
def SEC (t : Int) : Int := t * 1000000000

/-- Modelled from the spec: minutes in nanoseconds (see `NSEC`). -/
def MINUTE (t : Int) : Int := t * 60000000000

/-- Modelled from the spec: hours in nanoseconds (see `NSEC`). -/
def HOUR (t : Int) : Int := t * 3600000000000

/-- Modelled from the spec: days in nanoseconds (see `NSEC`). -/
def DAY (t : Int) : Int := t * 86400000000000

/-- Modelled from the spec: weeks in nanoseconds (see `NSEC`). -/
def WEEK (t : Int) : Int := t * 604800000000000

/-- The chain of `strncmp` tests on the units in `process_args`: the converted duration,
or `none` when the chain ends in the branch for invalid units. -/
def convert_units (units : String) (duration : Int) : Option Int :=
  if strncmp units "sec" 3 = 0 then some (SEC duration)
  else if strncmp units "msec" 4 = 0 then some (MSEC duration)
  else if strncmp units "usec" 4 = 0 then some (USEC duration)
  else if strncmp units "nsec" 4 = 0 then some (NSEC duration)
  else if strncmp units "minute" 6 = 0 then some (MINUTE duration)
  else if strncmp units "hour" 4 = 0 then some (HOUR duration)
  else if strncmp units "day" 3 = 0 then some (DAY duration)
  else if strncmp units "week" 4 = 0 then some (WEEK duration)
  else none

/-- Why a run of the model of `process_args` stopped without a result: an element of
`argv` outside `argv[0 .. argc-1]` was read, or the fuel given to the loop ran out. -/
inductive ArgFault where
  | out_of_bounds
  | out_of_fuel
deriving DecidableEq, Repr

/-- The `for` loop of `process_args`, from index `i`, with fuel bounding the number of
iterations.  `argv` is the list of the argument strings; reading an element that is not
in the list is a fault.  The result is the new state and the returned `int`. -/
def process_args_loop (argc : Nat) (argv : List String) :
    Nat → Nat → State → Except ArgFault (State × Int)
  | 0, i, s => if i < argc then .error .out_of_fuel else .ok (s, 1)
  | fuel + 1, i, s =>
    if i < argc then
      match argv[i]? with
      | none => .error .out_of_bounds
      | some arg =>
        if strcmp arg "-fast" = 0 then
          process_args_loop argc argv fuel (i + 1) { s with fast := true }
        else if strcmp arg "-stop" = 0 then
          if argc < i + 3 then .ok (s, 0)
          else
            match argv[i + 1]?, argv[i + 2]? with
            | some time_spec, some units =>
              let s := { s with duration := atoll time_spec }
              if s.duration = 0 ∧ strncmp time_spec "0" 1 ≠ 0 then .ok (s, 0)
              else
                match convert_units units s.duration with
                | some duration =>
                  process_args_loop argc argv fuel (i + 3) { s with duration := duration }
                | none => .ok (s, 0)
            | _, _ => .error .out_of_bounds
        else if strcmp arg "-wait" = 0 then
          process_args_loop argc argv fuel (i + 1) { s with wait_specified := true }
        else .ok (s, 0)
    else .ok (s, 1)

/-- The function `process_args`: the loop from index 1, which needs at most `argc`
iterations. -/
def process_args (argc : Nat) (argv : List String) (s : State) :
    Except ArgFault (State × Int) :=
  process_args_loop argc argv argc 1 s

/-- The string begins with one of the unit names that `process_args` looks for. -/
def unit_known (units : String) : Prop :=
  units.toList.take 3 = "sec".toList ∨ units.toList.take 4 = "msec".toList ∨
    units.toList.take 4 = "usec".toList ∨ units.toList.take 4 = "nsec".toList ∨
    units.toList.take 6 = "minute".toList ∨ units.toList.take 4 = "hour".toList ∨
    units.toList.take 3 = "day".toList ∨ units.toList.take 4 = "week".toList

instance (units : String) : Decidable (unit_known units) := by
  unfold unit_known; infer_instance

/-- The duration string is one that `process_args` reports as invalid: `atoll` gives 0
for it and it does not begin with the character `0`. -/
def time_rejected (time_spec : String) : Prop :=
  atoll time_spec = 0 ∧ time_spec.toList.take 1 ≠ ['0']

instance (time_spec : String) : Decidable (time_rejected time_spec) := by
  unfold time_rejected; infer_instance

/-! ## Insertions into the reaction queue -/

/-- The insertions into the reaction queue made by the drain loop of `next` for the events
it pops: one for each reaction of the trigger of each event, in order. -/
def drain_insertions (P : Program) (events : List event_t) : List Nat :=
  events.flatMap (fun e => (P.trigger e.trigger).reactions)

/-- The insertions into the reaction queue made by the output loop of `next` for the
reaction `reaction` when `flags` are the output flags that are set: one for each reaction
of each trigger listed under each output slot whose flag is set, in order. -/
def triggered (P : Program) (flags : List Nat) (reaction : Nat) : List Nat :=
  (((P.reaction reaction).output_produced.zip (P.reaction reaction).triggers).filter
      (fun slot => decide (slot.1 ∈ flags))).flatMap
    (fun slot => slot.2.flatMap (fun trigger => (P.trigger trigger).reactions))

/-- The insertions into the reaction queue made by the output loops of the first `n`
iterations of the reaction loop of `next` run from `s`, in order. -/
def propagated (w : World) (P : Program) : Nat → State → List Nat
  | 0, _ => []
  | n + 1, s =>
    match pqueue_pop (get_rct_pri P) s.reaction_q with
    | none => []
    | some (reaction, rest) =>
      triggered P
          (invoke w P (check_deadline w P { s with reaction_q := rest } reaction)
            reaction false).flags reaction ++
        propagated w P n (reaction_step w P { s with reaction_q := rest } reaction)

/-- The reactions whose bodies were called because they were popped from the reaction
queue, in the order of the calls. -/
def invoked (calls : List Call) : List Nat := (popped_calls calls).map Call.reaction

/-- A program in which trigger 0 is bound to the reactions 0 and 1 and every other
trigger to reaction 2; reaction `r` has index `r`; the reactions 0 and 1 have one output
slot each, with the flags 7 and 8, and both slots trigger trigger 2. -/
def fan_in : Program :=
  { trigger := fun t => { reactions := if t = 0 then [0, 1] else [2], offset := 0, period := 0 }
    reaction := fun r =>
      { index := r
        output_produced := if r = 0 then [7] else if r = 1 then [8] else []
        triggers := if r = 0 ∨ r = 1 then [[2]] else []
        deadline := 0, deadline_violation := none } }

/-- A world in which the first invocation of a reaction function sets flag 7 and calls
`stop`, the second sets flag 8, and the later ones do nothing; the clock reads 0 and
sleeps are not interrupted. -/
def fan_in_world : World :=
  { clock := fun _ => { tv_sec := 0, tv_nsec := 0 }
    nanosleep := fun _ => false
    function := fun n _ =>
      if n = 0 then [Action.write 7 true, Action.stop]
      else if n = 1 then [Action.write 8 true] else [] }

/-- The state in which `next` leaves `fast_state` for the program `fan_in` in the world
`fan_in_world`: the reactions 0, 1, 2 and 2 have been called at time 100 and `stop` has
been called. -/
def fan_in_state : State :=
  { fast_state with current_time := 100, stop_requested := true, invocations := 4
                    time_steps := 1, flags := [8, 7]
                    event_q := [{ addr := 1, time := 200, trigger := 0 }]
                    recycle_q := [{ addr := 0, time := 0, trigger := 0 }]
                    log := [{ reaction := 0, time := 100, violation := false },
                            { reaction := 1, time := 100, violation := false },
                            { reaction := 2, time := 100, violation := false },
                            { reaction := 2, time := 100, violation := false }] }

/-! ## Facts about the priority queue -/

theorem pqueue_pop_eq_none {α : Type} (pri : α → Int) (q : List α) :
    pqueue_pop pri q = none ↔ q = [] := by
  cases q with
  | nil => simp [pqueue_pop]
  | cons x xs =>
    simp only [pqueue_pop]
    cases h : pqueue_pop pri xs with
    | none => simp
    | some yr => obtain ⟨y, rest⟩ := yr; by_cases hle : pri x ≤ pri y <;> simp [hle]

theorem pqueue_pop_perm {α : Type} (pri : α → Int) (q : List α) (x : α) (rest : List α)
    (h : pqueue_pop pri q = some (x, rest)) : q.Perm (x :: rest) := by
  induction q generalizing x rest with
  | nil => simp [pqueue_pop] at h
  | cons a as ih =>
    simp only [pqueue_pop] at h
    cases hp : pqueue_pop pri as with
    | none =>
      rw [hp] at h
      have has : as = [] := (pqueue_pop_eq_none pri as).1 hp
      simp only [Option.some.injEq, Prod.mk.injEq] at h
      obtain ⟨rfl, rfl⟩ := h
      rw [has]
    | some yr =>
      obtain ⟨y, r⟩ := yr
      rw [hp] at h
      have hperm := ih y r hp
      by_cases hle : pri a ≤ pri y
      · simp only [hle, if_true, Option.some.injEq, Prod.mk.injEq] at h
        obtain ⟨rfl, rfl⟩ := h
        exact List.Perm.refl _
      · simp only [hle, if_false, Option.some.injEq, Prod.mk.injEq] at h
        obtain ⟨rfl, rfl⟩ := h
        exact (List.Perm.cons a hperm).trans (List.Perm.swap _ _ _)

theorem pqueue_pop_least {α : Type} (pri : α → Int) (q : List α) (x : α) (rest : List α)
    (h : pqueue_pop pri q = some (x, rest)) : ∀ y ∈ q, pri x ≤ pri y := by
  induction q generalizing x rest with
  | nil => simp [pqueue_pop] at h
  | cons a as ih =>
    simp only [pqueue_pop] at h
    cases hp : pqueue_pop pri as with
    | none =>
      rw [hp] at h
      have has : as = [] := (pqueue_pop_eq_none pri as).1 hp
      simp only [Option.some.injEq, Prod.mk.injEq] at h
      obtain ⟨rfl, rfl⟩ := h
      intro y hy
      rw [has] at hy
      simp only [List.mem_singleton] at hy
      rw [hy]
    | some yr =>
      obtain ⟨m, r⟩ := yr
      rw [hp] at h
      have hmin := ih m r hp
      by_cases hle : pri a ≤ pri m
      · simp only [hle, if_true, Option.some.injEq, Prod.mk.injEq] at h
        obtain ⟨rfl, rfl⟩ := h
        intro y hy
        rcases List.mem_cons.1 hy with rfl | hy
        · exact le_refl _
        · exact le_trans hle (hmin y hy)
      · simp only [hle, if_false, Option.some.injEq, Prod.mk.injEq] at h
        obtain ⟨rfl, rfl⟩ := h
        intro y hy
        rcases List.mem_cons.1 hy with rfl | hy
        · exact le_of_lt (not_le.1 hle)
        · exact hmin y hy

theorem pqueue_pop_mem {α : Type} (pri : α → Int) (q : List α) (x : α) (rest : List α)
    (h : pqueue_pop pri q = some (x, rest)) : x ∈ q :=
  (pqueue_pop_perm pri q x rest h).symm.subset (List.mem_cons_self x rest)

theorem pqueue_pop_rest_subset {α : Type} (pri : α → Int) (q : List α) (x : α)
    (rest : List α) (h : pqueue_pop pri q = some (x, rest)) : ∀ y ∈ rest, y ∈ q :=
  fun _ hy => (pqueue_pop_perm pri q x rest h).symm.subset (List.mem_cons_of_mem x hy)

theorem pqueue_peek_eq_none {α : Type} (pri : α → Int) (q : List α) :
    pqueue_peek pri q = none ↔ q = [] := by
  simp [pqueue_peek, pqueue_pop_eq_none]

theorem pqueue_peek_some {α : Type} (pri : α → Int) (q : List α) (x : α)
    (h : pqueue_peek pri q = some x) : ∃ rest, pqueue_pop pri q = some (x, rest) := by
  unfold pqueue_peek at h
  cases hp : pqueue_pop pri q with
  | none => rw [hp] at h; simp at h
  | some yr =>
    rw [hp] at h
    simp only [Option.map_some', Option.some.injEq] at h
    exact ⟨yr.2, by rw [← h]⟩

/-! ## Facts about `__schedule` and `schedule` -/

/-- The event queue after `__schedule` is the old one with one event added, whose trigger
is the given one and whose time is `current_time + offset + delay`; the other globals
that `next` and `wait_until` consult are untouched. -/
theorem __schedule_spec (P : Program) (s : State) (trigger : Nat) (delay : Int) :
    (∃ e, (__schedule P s trigger delay).1.event_q = s.event_q ++ [e] ∧
        e.trigger = trigger ∧
        e.time = s.current_time + (P.trigger trigger).offset + delay) ∧
      (__schedule P s trigger delay).1.current_time = s.current_time ∧
      (__schedule P s trigger delay).1.stop_time = s.stop_time ∧
      (__schedule P s trigger delay).1.reaction_q = s.reaction_q ∧
      (__schedule P s trigger delay).1.fast = s.fast ∧
      (__schedule P s trigger delay).1.log = s.log ∧
      (__schedule P s trigger delay).1.flags = s.flags := by
  unfold __schedule
  cases h : pqueue_pop get_evt_pri s.recycle_q with
  | none => simp [pqueue_insert]
  | some er => obtain ⟨e, rest⟩ := er; simp [pqueue_insert]

theorem schedule_spec (P : Program) (s : State) (trigger : Nat) (extra_delay : Int) :
    (∃ e, (schedule P s trigger extra_delay).1.event_q = s.event_q ++ [e] ∧
        e.trigger = trigger ∧
        e.time = s.current_time + (P.trigger trigger).offset +
          ((P.trigger trigger).offset + extra_delay)) ∧
      (schedule P s trigger extra_delay).1.current_time = s.current_time ∧
      (schedule P s trigger extra_delay).1.stop_time = s.stop_time ∧
      (schedule P s trigger extra_delay).1.reaction_q = s.reaction_q ∧
      (schedule P s trigger extra_delay).1.fast = s.fast ∧
      (schedule P s trigger extra_delay).1.log = s.log ∧
      (schedule P s trigger extra_delay).1.flags = s.flags :=
  __schedule_spec P s trigger ((P.trigger trigger).offset + extra_delay)

/-! ## Facts about `wait_until`, the drain loop and `next` -/

theorem wait_until_returns (w : World) (s : State) (target : Int) :
    ((wait_until w s target).2 = 0 ∨ (wait_until w s target).2 = -1) ∧
      ((wait_until w s target).2 = 0 → (wait_until w s target).1.current_time = target) := by
  unfold wait_until
  by_cases hc : s.stop_time > 0 ∧ target > s.stop_time
  · have hd : decide (s.stop_time > 0 ∧ target > s.stop_time) = true := decide_eq_true hc
    simp only [hd, if_true]
    split_ifs <;> simp
  · have hd : decide (s.stop_time > 0 ∧ target > s.stop_time) = false := decide_eq_false hc
    simp only [hd, Bool.false_eq_true, if_false]
    split_ifs <;> simp

/-- What `wait_until` leaves alone, and the three values `current_time` can take. -/
theorem wait_until_frame (w : World) (s : State) (target : Int) :
    (wait_until w s target).1.event_q = s.event_q ∧
      (wait_until w s target).1.reaction_q = s.reaction_q ∧
      (wait_until w s target).1.recycle_q = s.recycle_q ∧
      (wait_until w s target).1.stop_time = s.stop_time ∧
      (wait_until w s target).1.log = s.log ∧
      ((wait_until w s target).1.current_time = clamped_target s target ∨
        (wait_until w s target).1.current_time = s.current_time ∨
        (s.current_time < (wait_until w s target).1.current_time ∧
          (wait_until w s target).1.current_time < clamped_target s target)) := by
  unfold wait_until clamped_target
  by_cases hc : s.stop_time > 0 ∧ target > s.stop_time
  · have hd : decide (s.stop_time > 0 ∧ target > s.stop_time) = true := decide_eq_true hc
    simp only [hd, if_pos hc, if_true]
    split_ifs <;> simp
    omega
  · have hd : decide (s.stop_time > 0 ∧ target > s.stop_time) = false := decide_eq_false hc
    simp only [hd, if_neg hc, Bool.false_eq_true, if_false]
    split_ifs <;> simp
    omega

theorem clamped_target_le (s : State) (target : Int) : clamped_target s target ≤ target := by
  unfold clamped_target
  split_ifs with h
  · exact le_of_lt h.2
  · exact le_refl _

/-- What one iteration of the drain loop does to the event queue and to `current_time`. -/
theorem drain_body_spec (P : Program) (s : State) (event : event_t) (rest : List event_t)
    (hpop : pqueue_pop get_evt_pri s.event_q = some (event, rest)) :
    ∃ s', drain_body P s = .ok s' ∧ s'.current_time = s.current_time ∧
      s'.stop_time = s.stop_time ∧ s'.log = s.log ∧
      ((P.trigger event.trigger).period > 0 →
        ∃ e, s'.event_q = rest ++ [e] ∧ e.trigger = event.trigger ∧
          e.time = s.current_time + (P.trigger event.trigger).period) ∧
      (¬ (P.trigger event.trigger).period > 0 → s'.event_q = rest) := by
  unfold drain_body
  rw [hpop]
  by_cases hper : (P.trigger event.trigger).period > 0
  · simp only [hper, if_true]
    refine ⟨_, rfl, ?_, ?_, ?_, ?_, ?_⟩
    · exact (__schedule_spec P _ _ _).2.1
    · exact (__schedule_spec P _ _ _).2.2.1
    · exact (__schedule_spec P _ _ _).2.2.2.2.2.1
    · intro _
      obtain ⟨e, he, htrig, htime⟩ := (__schedule_spec P
        (insert_reactions P { s with event_q := rest } event.trigger) event.trigger
        ((P.trigger event.trigger).period - (P.trigger event.trigger).offset)).1
      refine ⟨e, he, htrig, ?_⟩
      rw [htime]
      simp only [insert_reactions]
      ring
    · intro h; exact absurd trivial h
  · simp only [hper, if_false]
    refine ⟨_, rfl, rfl, rfl, rfl, ?_, ?_⟩
    · intro h; exact h.elim
    · intro _; rfl

/-! ## Facts about the reaction loop -/

theorem apply_action_frame (P : Program) (s : State) (a : Action) :
    (apply_action P s a).current_time = s.current_time ∧
      (apply_action P s a).stop_time = s.stop_time ∧
      (apply_action P s a).reaction_q = s.reaction_q ∧
      (apply_action P s a).log = s.log := by
  cases a with
  | schedule t d =>
    obtain ⟨_, h1, h2, h3, _, h4, _⟩ := schedule_spec P s t d
    exact ⟨h1, h2, h3, h4⟩
  | stop => exact ⟨rfl, rfl, rfl, rfl⟩
  | write f v => exact ⟨rfl, rfl, rfl, rfl⟩

theorem actions_frame (P : Program) (l : List Action) (s : State) :
    (l.foldl (apply_action P) s).current_time = s.current_time ∧
      (l.foldl (apply_action P) s).stop_time = s.stop_time ∧
      (l.foldl (apply_action P) s).reaction_q = s.reaction_q ∧
      (l.foldl (apply_action P) s).log = s.log := by
  induction l generalizing s with
  | nil => exact ⟨rfl, rfl, rfl, rfl⟩
  | cons a l ih =>
    simp only [List.foldl_cons]
    obtain ⟨h1, h2, h3, h4⟩ := ih (apply_action P s a)
    obtain ⟨g1, g2, g3, g4⟩ := apply_action_frame P s a
    exact ⟨h1.trans g1, h2.trans g2, h3.trans g3, h4.trans g4⟩

theorem invoke_frame (w : World) (P : Program) (s : State) (r : Nat) (v : Bool) :
    (invoke w P s r v).current_time = s.current_time ∧
      (invoke w P s r v).stop_time = s.stop_time ∧
      (invoke w P s r v).reaction_q = s.reaction_q ∧
      (invoke w P s r v).log
        = s.log ++ [{ reaction := r, time := s.current_time, violation := v }] := by
  unfold invoke
  obtain ⟨h1, h2, h3, h4⟩ := actions_frame P (w.function s.invocations r)
    { s with invocations := s.invocations + 1
             log := s.log ++ [{ reaction := r, time := s.current_time, violation := v }] }
  exact ⟨h1, h2, h3, h4⟩

theorem violations_frame (w : World) (P : Program) (l : List Nat) (s : State) :
    (l.foldl (fun s r => invoke w P s r true) s).current_time = s.current_time ∧
      (l.foldl (fun s r => invoke w P s r true) s).stop_time = s.stop_time ∧
      (l.foldl (fun s r => invoke w P s r true) s).reaction_q = s.reaction_q ∧
      ∃ calls, (l.foldl (fun s r => invoke w P s r true) s).log = s.log ++ calls ∧
        ∀ c ∈ calls, c.violation = true ∧ c.time = s.current_time := by
  induction l generalizing s with
  | nil => exact ⟨rfl, rfl, rfl, [], by simp, by simp⟩
  | cons a l ih =>
    simp only [List.foldl_cons]
    obtain ⟨h1, h2, h3, calls, h4, h5⟩ := ih (invoke w P s a true)
    obtain ⟨g1, g2, g3, g4⟩ := invoke_frame w P s a true
    refine ⟨h1.trans g1, h2.trans g2, h3.trans g3,
      { reaction := a, time := s.current_time, violation := true } :: calls, ?_, ?_⟩
    · rw [h4, g4]; simp
    · intro c hc
      rcases List.mem_cons.1 hc with rfl | hc
      · exact ⟨rfl, rfl⟩
      · exact ⟨(h5 c hc).1, (h5 c hc).2.trans g1⟩

theorem check_deadline_frame (w : World) (P : Program) (s : State) (r : Nat) :
    (check_deadline w P s r).current_time = s.current_time ∧
      (check_deadline w P s r).stop_time = s.stop_time ∧
      (check_deadline w P s r).reaction_q = s.reaction_q ∧
      ∃ calls, (check_deadline w P s r).log = s.log ++ calls ∧
        ∀ c ∈ calls, c.violation = true ∧ c.time = s.current_time := by
  unfold check_deadline
  by_cases h1 : (P.reaction r).deadline > 0
  · simp only [h1, if_true]
    by_cases h2 : (w.clock s.clock_reads).ns > s.current_time + (P.reaction r).deadline
    · simp only [h2, if_true]
      cases hv : (P.reaction r).deadline_violation with
      | none => exact ⟨by simp, by simp, by simp, [], by simp, by simp⟩
      | some trigger =>
        exact violations_frame w P (P.trigger trigger).reactions
          { s with clock_reads := s.clock_reads + 1 }
    · simp only [h2, if_false]
      exact ⟨by simp, by simp, by simp, [], by simp, by simp⟩
  · simp only [h1, if_false]
    exact ⟨by simp, by simp, by simp, [], by simp, by simp⟩

theorem foldl_pqueue_insert {α : Type} (l q : List α) : l.foldl pqueue_insert q = q ++ l := by
  induction l generalizing q with
  | nil => simp
  | cons a l ih => simp [List.foldl_cons, ih, pqueue_insert]

theorem insert_reactions_frame (P : Program) (s : State) (trigger : Nat) :
    (insert_reactions P s trigger).current_time = s.current_time ∧
      (insert_reactions P s trigger).stop_time = s.stop_time ∧
      (insert_reactions P s trigger).log = s.log ∧
      (insert_reactions P s trigger).flags = s.flags ∧
      (insert_reactions P s trigger).reaction_q = s.reaction_q ++ (P.trigger trigger).reactions := by
  unfold insert_reactions
  exact ⟨rfl, rfl, rfl, rfl, foldl_pqueue_insert _ _⟩

theorem trigger_array_frame (P : Program) (triggerArray : List Nat) (s : State) :
    (triggerArray.foldl (insert_reactions P) s).current_time = s.current_time ∧
      (triggerArray.foldl (insert_reactions P) s).stop_time = s.stop_time ∧
      (triggerArray.foldl (insert_reactions P) s).log = s.log ∧
      (triggerArray.foldl (insert_reactions P) s).flags = s.flags ∧
      ∃ added, (triggerArray.foldl (insert_reactions P) s).reaction_q = s.reaction_q ++ added ∧
        ∀ r ∈ added, ∃ trigger ∈ triggerArray, r ∈ (P.trigger trigger).reactions := by
  induction triggerArray generalizing s with
  | nil => exact ⟨rfl, rfl, rfl, rfl, [], by simp, by simp⟩
  | cons t ts ih =>
    simp only [List.foldl_cons]
    obtain ⟨h1, h2, h3, h4, added, h5, h6⟩ := ih (insert_reactions P s t)
    obtain ⟨g1, g2, g3, g4, g5⟩ := insert_reactions_frame P s t
    refine ⟨h1.trans g1, h2.trans g2, h3.trans g3, h4.trans g4,
      (P.trigger t).reactions ++ added, ?_, ?_⟩
    · rw [h5, g5, List.append_assoc]
    · intro r hr
      rcases List.mem_append.1 hr with hr | hr
      · exact ⟨t, List.mem_cons_self t ts, hr⟩
      · obtain ⟨t', ht', hr'⟩ := h6 r hr
        exact ⟨t', List.mem_cons_of_mem t ht', hr'⟩

theorem slots_frame (P : Program) (slots : List (Nat × List Nat)) (s : State) :
    (slots.foldl (fun s slot =>
        if slot.1 ∈ s.flags then slot.2.foldl (insert_reactions P) s else s) s).current_time
        = s.current_time ∧
      (slots.foldl (fun s slot =>
        if slot.1 ∈ s.flags then slot.2.foldl (insert_reactions P) s else s) s).stop_time
        = s.stop_time ∧
      (slots.foldl (fun s slot =>
        if slot.1 ∈ s.flags then slot.2.foldl (insert_reactions P) s else s) s).log = s.log ∧
      ∃ added, (slots.foldl (fun s slot =>
          if slot.1 ∈ s.flags then slot.2.foldl (insert_reactions P) s else s) s).reaction_q
          = s.reaction_q ++ added ∧
        ∀ r ∈ added, ∃ slot ∈ slots, ∃ trigger ∈ slot.2, r ∈ (P.trigger trigger).reactions := by
  induction slots generalizing s with
  | nil => exact ⟨rfl, rfl, rfl, [], by simp, by simp⟩
  | cons sl sls ih =>
    simp only [List.foldl_cons]
    by_cases hf : sl.1 ∈ s.flags
    · simp only [hf, if_true]
      obtain ⟨h1, h2, h3, added, h5, h6⟩ := ih (sl.2.foldl (insert_reactions P) s)
      obtain ⟨g1, g2, g3, _, added0, g5, g6⟩ := trigger_array_frame P sl.2 s
      refine ⟨h1.trans g1, h2.trans g2, h3.trans g3, added0 ++ added, ?_, ?_⟩
      · rw [h5, g5, List.append_assoc]
      · intro r hr
        rcases List.mem_append.1 hr with hr | hr
        · obtain ⟨t, ht, hr'⟩ := g6 r hr
          exact ⟨sl, List.mem_cons_self sl sls, t, ht, hr'⟩
        · obtain ⟨sl', hsl', t, ht, hr'⟩ := h6 r hr
          exact ⟨sl', List.mem_cons_of_mem sl hsl', t, ht, hr'⟩
    · simp only [hf, if_false]
      obtain ⟨h1, h2, h3, added, h5, h6⟩ := ih s
      refine ⟨h1, h2, h3, added, h5, ?_⟩
      intro r hr
      obtain ⟨sl', hsl', t, ht, hr'⟩ := h6 r hr
      exact ⟨sl', List.mem_cons_of_mem sl hsl', t, ht, hr'⟩

theorem propagate_outputs_frame (P : Program) (s : State) (reaction : Nat) :
    (propagate_outputs P s reaction).current_time = s.current_time ∧
      (propagate_outputs P s reaction).stop_time = s.stop_time ∧
      (propagate_outputs P s reaction).log = s.log ∧
      ∃ added, (propagate_outputs P s reaction).reaction_q = s.reaction_q ++ added ∧
        ∀ r ∈ added, ∃ triggerArray ∈ (P.reaction reaction).triggers,
          ∃ trigger ∈ triggerArray, r ∈ (P.trigger trigger).reactions := by
  unfold propagate_outputs
  obtain ⟨h1, h2, h3, added, h4, h5⟩ :=
    slots_frame P ((P.reaction reaction).output_produced.zip (P.reaction reaction).triggers) s
  refine ⟨h1, h2, h3, added, h4, ?_⟩
  intro r hr
  obtain ⟨slot, hslot, t, ht, hr'⟩ := h5 r hr
  obtain ⟨flag, ts⟩ := slot
  exact ⟨ts, (List.of_mem_zip hslot).2, t, ht, hr'⟩

/-- One iteration of the reaction loop: `current_time` and `stop_time` stay, the log gets
the calls of the violation reactions followed by the call of the popped reaction, and
the reaction queue grows at its end by reactions triggered through the outputs. -/
theorem reaction_step_frame (w : World) (P : Program) (s : State) (reaction : Nat) :
    (reaction_step w P s reaction).current_time = s.current_time ∧
      (reaction_step w P s reaction).stop_time = s.stop_time ∧
      (∃ calls, (reaction_step w P s reaction).log
          = s.log ++ calls ++ [{ reaction := reaction, time := s.current_time, violation := false }] ∧
        ∀ c ∈ calls, c.violation = true ∧ c.time = s.current_time) ∧
      ∃ added, (reaction_step w P s reaction).reaction_q = s.reaction_q ++ added ∧
        ∀ r ∈ added, ∃ triggerArray ∈ (P.reaction reaction).triggers,
          ∃ trigger ∈ triggerArray, r ∈ (P.trigger trigger).reactions := by
  unfold reaction_step
  obtain ⟨a1, a2, a3, calls, a4, a5⟩ := check_deadline_frame w P s reaction
  obtain ⟨b1, b2, b3, b4⟩ := invoke_frame w P (check_deadline w P s reaction) reaction false
  obtain ⟨c1, c2, c3, added, c4, c5⟩ :=
    propagate_outputs_frame P (invoke w P (check_deadline w P s reaction) reaction false) reaction
  refine ⟨c1.trans (b1.trans a1), c2.trans (b2.trans a2), ⟨calls, ?_, a5⟩, added, ?_, c5⟩
  · rw [c3, b4, a4, a1]
  · rw [c4, b3, a3]

theorem popped_calls_violations (calls : List Call) (h : ∀ c ∈ calls, c.violation = true) :
    popped_calls calls = [] := by
  induction calls with
  | nil => rfl
  | cons c cs ih =>
    have hc : c.violation = true := h c (List.mem_cons_self c cs)
    have hcs : popped_calls cs = [] := ih (fun x hx => h x (List.mem_cons_of_mem c hx))
    unfold popped_calls at hcs ⊢
    simp [List.filter_cons, hc, hcs]

theorem popped_calls_append (a b : List Call) :
    popped_calls (a ++ b) = popped_calls a ++ popped_calls b := by
  unfold popped_calls
  exact List.filter_append a b

theorem reaction_run_succ (w : World) (P : Program) (k : Nat) (s : State) (reaction : Nat)
    (rest : List Nat) (hpop : pqueue_pop (get_rct_pri P) s.reaction_q = some (reaction, rest)) :
    reaction_run w P (k + 1) s
      = reaction_run w P k (reaction_step w P { s with reaction_q := rest } reaction) := by
  simp only [reaction_run, hpop]

/-- The reaction loop returns the state that `reaction_run` computes, and it returns
exactly when that state has an empty reaction queue. -/
theorem reaction_loop_eq (w : World) (P : Program) (fuel : Nat) (s : State) :
    reaction_loop w P fuel s =
      if (reaction_run w P fuel s).reaction_q = [] then .ok (reaction_run w P fuel s)
      else .error .out_of_fuel := by
  induction fuel generalizing s with
  | zero =>
    simp only [reaction_loop, reaction_run, pqueue_size]
    cases hq : s.reaction_q with
    | nil => simp
    | cons a l => simp
  | succ n ih =>
    simp only [reaction_loop, reaction_run]
    cases hpop : pqueue_pop (get_rct_pri P) s.reaction_q with
    | none =>
      have hq : s.reaction_q = [] := (pqueue_pop_eq_none _ _).1 hpop
      simp [hq]
    | some rr =>
      obtain ⟨reaction, rest⟩ := rr
      exact ih _

/-- The calls logged by a run of the reaction loop all carry the `current_time` of the
start of the run, which the run does not change. -/
theorem reaction_run_times (w : World) (P : Program) (n : Nat) (s : State) :
    (reaction_run w P n s).current_time = s.current_time ∧
      (reaction_run w P n s).stop_time = s.stop_time ∧
      ∃ calls, (reaction_run w P n s).log = s.log ++ calls ∧
        ∀ c ∈ calls, c.time = s.current_time := by
  induction n generalizing s with
  | zero => exact ⟨rfl, rfl, [], by simp [reaction_run], by simp⟩
  | succ n ih =>
    cases hpop : pqueue_pop (get_rct_pri P) s.reaction_q with
    | none =>
      simp only [reaction_run, hpop]
      exact ⟨by simp, by simp, [], by simp, by simp⟩
    | some rr =>
      obtain ⟨reaction, rest⟩ := rr
      rw [reaction_run_succ w P n s reaction rest hpop]
      obtain ⟨h1, h2, calls2, h3, h4⟩ :=
        ih (reaction_step w P { s with reaction_q := rest } reaction)
      obtain ⟨g1, g2, ⟨vs, g3, g4⟩, _⟩ :=
        reaction_step_frame w P { s with reaction_q := rest } reaction
      refine ⟨h1.trans g1, h2.trans g2,
        vs ++ [{ reaction := reaction, time := s.current_time, violation := false }] ++ calls2,
        ?_, ?_⟩
      · rw [h3, g3]; simp
      · intro c hc
        rcases List.mem_append.1 hc with hc | hc
        · rcases List.mem_append.1 hc with hc | hc
          · exact (g4 c hc).2
          · rw [List.mem_singleton.1 hc]
        · exact (h4 c hc).trans g1

theorem enqueues_upward_step (w : World) (P : Program) (s : State) (reaction : Nat)
    (rest : List Nat) (hpop : pqueue_pop (get_rct_pri P) s.reaction_q = some (reaction, rest))
    (h : enqueues_upward w P s) :
    enqueues_upward w P (reaction_step w P { s with reaction_q := rest } reaction) := by
  intro k r rs added hk hq
  have hrun := reaction_run_succ w P k s reaction rest hpop
  rw [← hrun] at hk hq
  exact h (k + 1) r rs added hk hq

theorem reaction_run_order (w : World) (P : Program) (n : Nat) :
    ∀ (s : State) (m : Nat), enqueues_upward w P s →
      (∀ r ∈ s.reaction_q, m ≤ (P.reaction r).index) →
      ∃ calls, (reaction_run w P n s).log = s.log ++ calls ∧
        (popped_calls calls).Pairwise (fun a b => a.index P ≤ b.index P) ∧
        ∀ c ∈ popped_calls calls, m ≤ c.index P := by
  induction n with
  | zero =>
    intro s m _ _
    exact ⟨[], by simp [reaction_run], by simp [popped_calls], by simp [popped_calls]⟩
  | succ n ih =>
    intro s m hup hm
    cases hpop : pqueue_pop (get_rct_pri P) s.reaction_q with
    | none =>
      simp only [reaction_run, hpop]
      exact ⟨[], by simp, by simp [popped_calls], by simp [popped_calls]⟩
    | some rr =>
      obtain ⟨reaction, rest⟩ := rr
      rw [reaction_run_succ w P n s reaction rest hpop]
      obtain ⟨_, _, ⟨vs, g3, g4⟩, added, g5, _⟩ :=
        reaction_step_frame w P { s with reaction_q := rest } reaction
      have hadded : ∀ r ∈ added, (P.reaction reaction).index < (P.reaction r).index :=
        hup 0 reaction rest added hpop g5
      have hleast : ∀ y ∈ s.reaction_q, (P.reaction reaction).index ≤ (P.reaction y).index := by
        intro y hy
        have := pqueue_pop_least (get_rct_pri P) s.reaction_q reaction rest hpop y hy
        unfold get_rct_pri at this
        exact_mod_cast this
      have hq : ∀ r ∈ (reaction_step w P { s with reaction_q := rest } reaction).reaction_q,
          (P.reaction reaction).index ≤ (P.reaction r).index := by
        intro r hr
        rw [g5] at hr
        rcases List.mem_append.1 hr with hr | hr
        · exact hleast r (pqueue_pop_rest_subset _ _ _ _ hpop r hr)
        · exact le_of_lt (hadded r hr)
      obtain ⟨calls2, h1, h2, h3⟩ :=
        ih (reaction_step w P { s with reaction_q := rest } reaction) (P.reaction reaction).index
          (enqueues_upward_step w P s reaction rest hpop hup) hq
      have hmr : m ≤ (P.reaction reaction).index :=
        hm reaction (pqueue_pop_mem _ _ _ _ hpop)
      have hpopped : popped_calls
          (vs ++ [{ reaction := reaction, time := s.current_time, violation := false }] ++ calls2)
          = { reaction := reaction, time := s.current_time, violation := false }
            :: popped_calls calls2 := by
        rw [popped_calls_append, popped_calls_append,
          popped_calls_violations vs (fun c hc => (g4 c hc).1)]
        simp [popped_calls]
      refine ⟨vs ++ [{ reaction := reaction, time := s.current_time, violation := false }]
        ++ calls2, ?_, ?_, ?_⟩
      · rw [h1, g3]; simp
      · rw [hpopped]
        exact List.Pairwise.cons (fun c hc => h3 c hc) h2
      · rw [hpopped]
        intro c hc
        rcases List.mem_cons.1 hc with rfl | hc
        · exact hmr
        · exact le_trans hmr (h3 c hc)

theorem enqueues_upward_of_topo_sorted (w : World) (P : Program) (s : State)
    (h : topo_sorted P) : enqueues_upward w P s := by
  intro k reaction rest added _ hq r hr
  obtain ⟨_, _, _, added0, g5, g6⟩ :=
    reaction_step_frame w P { reaction_run w P k s with reaction_q := rest } reaction
  have heq : added = added0 := by
    have : rest ++ added = rest ++ added0 := by rw [← hq, g5]
    exact List.append_cancel_left this
  rw [heq] at hr
  obtain ⟨ts, hts, t, ht, hr'⟩ := g6 r hr
  exact h reaction ts t r hts ht hr'

theorem two_reactions_topo_sorted : topo_sorted two_reactions := by
  intro reaction ts t r hts ht hr
  cases reaction with
  | zero =>
    simp only [two_reactions, List.mem_singleton] at hts ht hr
    subst hts
    simp only [List.mem_singleton] at ht
    subst ht
    subst hr
    simp [two_reactions]
  | succ n => simp [two_reactions] at hts

theorem drain_body_frame (P : Program) (s s' : State) (h : drain_body P s = .ok s') :
    s'.current_time = s.current_time ∧ s'.stop_time = s.stop_time ∧ s'.log = s.log := by
  cases hpop : pqueue_pop get_evt_pri s.event_q with
  | none => simp [drain_body, hpop] at h
  | some er =>
    obtain ⟨event, rest⟩ := er
    obtain ⟨s'', hs'', h1, h2, h3, _⟩ := drain_body_spec P s event rest hpop
    rw [hs''] at h
    cases h
    exact ⟨h1, h2, h3⟩

theorem drain_loop_frame (P : Program) (fuel : Nat) (s s' : State)
    (h : drain_loop P fuel s = .ok s') :
    s'.current_time = s.current_time ∧ s'.stop_time = s.stop_time ∧ s'.log = s.log := by
  induction fuel generalizing s with
  | zero => simp [drain_loop] at h
  | succ n ih =>
    simp only [drain_loop] at h
    cases hb : drain_body P s with
    | error f => rw [hb] at h; simp at h
    | ok s1 =>
      rw [hb] at h
      obtain ⟨g1, g2, g3⟩ := drain_body_frame P s s1 hb
      by_cases hagain : drain_again s1 = true
      · simp only [hagain, if_true] at h
        obtain ⟨h1, h2, h3⟩ := ih s1 h
        exact ⟨h1.trans g1, h2.trans g2, h3.trans g3⟩
      · simp only [hagain, Bool.false_eq_true, if_false] at h
        cases h
        exact ⟨g1, g2, g3⟩

/-- From `__start_time_step` to the end of `next`, `current_time` does not change, and
every reaction is called at that `current_time`. -/
theorem next_tag_frame (w : World) (P : Program) (fuel : Nat) (s s' : State) (r : Int)
    (h : next_tag w P fuel s = .ok (s', r)) :
    s'.current_time = s.current_time ∧
      ∃ calls, s'.log = s.log ++ calls ∧ ∀ c ∈ calls, c.time = s.current_time := by
  unfold next_tag at h
  cases hd : drain_loop P fuel (__start_time_step s) with
  | error f => rw [hd] at h; simp at h
  | ok s1 =>
    rw [hd] at h
    simp only at h
    obtain ⟨d1, _, d3⟩ := drain_loop_frame P fuel _ s1 hd
    rw [reaction_loop_eq] at h
    split_ifs at h with hq
    · simp only [Except.ok.injEq, Prod.mk.injEq] at h
      obtain ⟨h1, _⟩ := h
      obtain ⟨r1, _, calls, r3, r4⟩ := reaction_run_times w P fuel s1
      have hct : s1.current_time = s.current_time := d1
      have hlog : s1.log = s.log := d3
      rw [← h1]
      refine ⟨r1.trans hct, calls, ?_, ?_⟩
      · rw [r3, hlog]
      · intro c hc; exact (r4 c hc).trans hct

/-- A call of `next` that returns either returns early, leaving the log as it was, or is
the run of `next_tag` from the state reached by `wait_until`. -/
theorem next_cases (w : World) (P : Program) (fuel : Nat) (s s' : State) (r : Int)
    (h : next w P fuel s = .ok (s', r)) :
    s'.log = s.log ∨ next_tag w P fuel (wait_until w s (next_time s)).1 = .ok (s', r) := by
  unfold next at h
  simp only at h
  split_ifs at h with h1 h2
  · simp only [Except.ok.injEq, Prod.mk.injEq] at h
    left; rw [← h.1]
  · simp only [Except.ok.injEq, Prod.mk.injEq] at h
    left; rw [← h.1]
    exact (wait_until_frame w s (next_time s)).2.2.2.2.1
  · right; exact h

theorem next_continue (w : World) (P : Program) (fuel : Nat) (s s' : State)
    (h : next w P fuel s = .ok (s', 1)) :
    next_tag w P fuel (wait_until w s (next_time s)).1 = .ok (s', 1) := by
  unfold next at h
  simp only at h
  split_ifs at h with h1 h2
  · simp at h
  · simp at h
  · exact h

theorem next_after_wait (w : World) (P : Program) (fuel : Nat) (s : State) (e : event_t)
    (hpeek : pqueue_peek get_evt_pri s.event_q = some e)
    (hwait : (wait_until w s e.time).2 = 0) :
    next_time s = e.time ∧ next w P fuel s = next_tag w P fuel (wait_until w s e.time).1 := by
  have hnt : next_time s = e.time := by simp [next_time, hpeek]
  refine ⟨hnt, ?_⟩
  unfold next
  simp only [hpeek, hnt, hwait]
  simp

/-! ## `schedule` -/

/-- C1, evaluated on the code: with `current_time = 100`, a trigger of offset 5 and
`extra_delay = 0`, `schedule` inserts exactly one event, and its time is
110 = 100 + 5 + 5 + 0 rather than 105 = 100 + 5 + 0: the offset of the trigger is added
once by `schedule` and once more by `__schedule`. -/
theorem schedule_adds_offset_twice :
    (schedule (one_trigger 5 0) { start_state with current_time := 100 } 0 0).1.event_q
        = [{ addr := 0, time := 110, trigger := 0 }] ∧
      (110 : Int) ≠ 100 + ((one_trigger 5 0).trigger 0).offset + 0 := by
  decide

/-! ## `wait_until` -/

/-- C5: `wait_until` returns 0 or -1, and when it returns 0 the new `current_time` is the
target that was asked for. -/
theorem wait_until_zero_reaches_target (w : World) (s : State) (target : Int) :
    ((wait_until w s target).2 = 0 ∨ (wait_until w s target).2 = -1) ∧
      ((wait_until w s target).2 = 0 → (wait_until w s target).1.current_time = target) :=
  wait_until_returns w s target

theorem wait_until_zero_reaches_target_witness :
    (wait_until (still_world 150 false) waiting_state 200).2 = 0 ∧
      (wait_until (still_world 150 false) waiting_state 200).1.current_time = 200 :=
  ⟨by decide, (wait_until_zero_reaches_target (still_world 150 false) waiting_state 200).2
    (by decide)⟩

/-- C6: when `stop_time > 0` and the target lies beyond it, `wait_until` returns -1
whatever the mode, the clock and the sleep do, the new `current_time` is at most the
larger of the old `current_time` and `stop_time`, and in fast mode it is `stop_time`. -/
theorem wait_until_beyond_stop_time (w : World) (s : State) (target : Int)
    (hstop : s.stop_time > 0) (htarget : target > s.stop_time) :
    (wait_until w s target).2 = -1 ∧
      (wait_until w s target).1.current_time ≤ max s.current_time s.stop_time ∧
      (s.fast = true → (wait_until w s target).1.current_time = s.stop_time) := by
  have hd : decide (s.stop_time > 0 ∧ target > s.stop_time) = true :=
    decide_eq_true ⟨hstop, htarget⟩
  unfold wait_until
  simp only [hd, if_true]
  split_ifs with h1 h2 h3 h4 h5 <;> simp_all
  omega

theorem wait_until_beyond_stop_time_witness :
    (wait_until (still_world 150 true) stopping_state 200).2 = -1 ∧
      (wait_until (still_world 150 true) stopping_state 200).1.current_time
        ≤ max stopping_state.current_time stopping_state.stop_time :=
  ⟨(wait_until_beyond_stop_time (still_world 150 true) stopping_state 200
      (by decide) (by decide)).1,
    (wait_until_beyond_stop_time (still_world 150 true) stopping_state 200
      (by decide) (by decide)).2.1⟩

/-- C7: in non-fast mode, when the computed wait is positive and `nanosleep` reports an
interruption, with `p` the physical time read after the sleep and `t` the (possibly
clamped) target: if `current_time < p < t` then `current_time` becomes `p` and -1 is
returned; if `p > current_time` and `p ≥ t` then `current_time` becomes `t` and the clamp
sentinel is returned; if `p ≤ current_time` then `current_time` is unchanged and -1 is
returned. -/
theorem wait_until_interrupted_sleep (w : World) (s : State) (target : Int)
    (hfast : s.fast = false)
    (hwait : 0 < clamped_target s target - (w.clock s.clock_reads).ns)
    (hint : w.nanosleep s.sleeps = true) :
    (s.current_time < (w.clock (s.clock_reads + 1)).ns ∧
        (w.clock (s.clock_reads + 1)).ns < clamped_target s target →
        (wait_until w s target).1.current_time = (w.clock (s.clock_reads + 1)).ns ∧
          (wait_until w s target).2 = -1) ∧
      (s.current_time < (w.clock (s.clock_reads + 1)).ns ∧
        clamped_target s target ≤ (w.clock (s.clock_reads + 1)).ns →
        (wait_until w s target).1.current_time = clamped_target s target ∧
          (wait_until w s target).2 = clamp_sentinel s target) ∧
      ((w.clock (s.clock_reads + 1)).ns ≤ s.current_time →
        (wait_until w s target).1.current_time = s.current_time ∧
          (wait_until w s target).2 = -1) := by
  unfold clamped_target at hwait
  unfold wait_until clamped_target clamp_sentinel
  by_cases hc : s.stop_time > 0 ∧ target > s.stop_time
  · have hd : decide (s.stop_time > 0 ∧ target > s.stop_time) = true := decide_eq_true hc
    rw [if_pos hc] at hwait
    have hw : ¬ (s.stop_time - (w.clock s.clock_reads).ns ≤ 0) := by omega
    simp only [hd, if_pos hc, hfast, hw, hint, Bool.not_false, if_true, if_false]
    refine ⟨?_, ?_, ?_⟩
    · rintro ⟨h1, h2⟩; simp [h1, h2]
    · rintro ⟨h1, h2⟩
      have h3 : ¬ ((w.clock (s.clock_reads + 1)).ns < s.stop_time) := by omega
      simp [h1, h3]
    · intro h1
      have h3 : ¬ ((w.clock (s.clock_reads + 1)).ns > s.current_time) := by omega
      simp [h3]
  · have hd : decide (s.stop_time > 0 ∧ target > s.stop_time) = false := decide_eq_false hc
    rw [if_neg hc] at hwait
    have hw : ¬ (target - (w.clock s.clock_reads).ns ≤ 0) := by omega
    simp only [hd, if_neg hc, hfast, Bool.false_eq_true, if_false, hw, hint, Bool.not_false,
      if_true]
    refine ⟨?_, ?_, ?_⟩
    · rintro ⟨h1, h2⟩; simp [h1, h2]
    · rintro ⟨h1, h2⟩
      have h3 : ¬ ((w.clock (s.clock_reads + 1)).ns < target) := by omega
      simp [h1, h3]
    · intro h1
      have h3 : ¬ ((w.clock (s.clock_reads + 1)).ns > s.current_time) := by omega
      simp [h3]

theorem wait_until_interrupted_sleep_witness :
    (wait_until (still_world 150 true) waiting_state 200).1.current_time = 150 ∧
      (wait_until (still_world 150 true) waiting_state 200).2 = -1 :=
  (wait_until_interrupted_sleep (still_world 150 true) waiting_state 200
    (by decide) (by decide) (by decide)).1 (by decide)

/-- C8: when the target is not before `current_time` and the stop time is unset
(`stop_time ≤ 0`) or not before `current_time`, the `current_time` after `wait_until` is
not before the one on entry, whatever the clock and the sleep do; `schedule` and
`__schedule` leave `current_time` as it is. -/
theorem current_time_never_decreases (w : World) (P : Program) (s : State) (target : Int)
    (htarget : target ≥ s.current_time)
    (hstop : s.stop_time ≤ 0 ∨ s.stop_time ≥ s.current_time) :
    s.current_time ≤ (wait_until w s target).1.current_time ∧
      (∀ trigger delay,
        (schedule P s trigger delay).1.current_time = s.current_time ∧
          (__schedule P s trigger delay).1.current_time = s.current_time) := by
  constructor
  · unfold wait_until
    by_cases hc : s.stop_time > 0 ∧ target > s.stop_time
    · have hd : decide (s.stop_time > 0 ∧ target > s.stop_time) = true := decide_eq_true hc
      simp only [hd, if_true]
      split_ifs <;> simp <;> omega
    · have hd : decide (s.stop_time > 0 ∧ target > s.stop_time) = false := decide_eq_false hc
      simp only [hd, Bool.false_eq_true, if_false]
      split_ifs <;> simp <;> omega
  · intro trigger delay
    exact ⟨(schedule_spec P s trigger delay).2.1, (__schedule_spec P s trigger delay).2.1⟩

theorem current_time_never_decreases_witness :
    waiting_state.current_time ≤
      (wait_until (still_world 150 true) waiting_state 200).1.current_time :=
  (current_time_never_decreases (still_world 150 true) (one_trigger 0 0) waiting_state 200
    (by decide) (by decide)).1

/-! ## The drain step of `next` -/

/-- C2, evaluated on the code: in non-fast mode with no stop time, `current_time = 100`
and one event at time 200 in the queue, let the clock read 150 and the sleep be
interrupted.  Then `wait_until` sets `current_time` to 150 and returns -1; `next` does
not return but goes on to pop the event, whose time 200 is not `current_time`, and the
reaction it triggers is invoked with `current_time = 150`; `next` returns 1. -/
theorem next_drains_event_before_its_time :
    pqueue_peek get_evt_pri waiting_state.event_q = some { addr := 0, time := 200, trigger := 0 } ∧
      (wait_until (still_world 150 true) waiting_state 200).1.current_time = 150 ∧
      (wait_until (still_world 150 true) waiting_state 200).2 = -1 ∧
      (next (still_world 150 true) (one_trigger 0 0) 5 waiting_state).toOption.map
          (fun r => (r.1.current_time, r.1.event_q, r.1.log, r.2))
        = some (150, [], [{ reaction := 0, time := 150, violation := false }], 1) := by
  decide

/-- C3: when the drain loop of `next` pops an event while `current_time` is `T`, and the
trigger of the event has period `P > 0`, then, whatever the offset of the trigger, the
event queue afterwards is the remaining queue plus exactly one new event, which is for
the same trigger and has time `T + P`; when the period is not positive (in particular
when it is 0) the event queue afterwards is just the remaining queue. -/
theorem drain_rearms_periodic_trigger (P : Program) (s : State) (event : event_t)
    (rest : List event_t) (hpop : pqueue_pop get_evt_pri s.event_q = some (event, rest)) :
    ∃ s', drain_body P s = .ok s' ∧
      ((P.trigger event.trigger).period > 0 →
        ∃ e, s'.event_q = rest ++ [e] ∧ e.trigger = event.trigger ∧
          e.time = s.current_time + (P.trigger event.trigger).period) ∧
      (¬ (P.trigger event.trigger).period > 0 → s'.event_q = rest) := by
  obtain ⟨s', hs', _, _, _, hpos, hzero⟩ := drain_body_spec P s event rest hpop
  exact ⟨s', hs', hpos, hzero⟩

theorem drain_rearms_periodic_trigger_witness :
    ∃ s', drain_body (one_trigger 30 50) { waiting_state with current_time := 200 } = .ok s' ∧
      (((one_trigger 30 50).trigger 0).period > 0 →
        ∃ e, s'.event_q = [] ++ [e] ∧ e.trigger = 0 ∧
          e.time = 200 + ((one_trigger 30 50).trigger 0).period) ∧
      (¬ ((one_trigger 30 50).trigger 0).period > 0 → s'.event_q = []) :=
  drain_rearms_periodic_trigger (one_trigger 30 50) { waiting_state with current_time := 200 }
    { addr := 0, time := 200, trigger := 0 } [] (by decide)

/-! ## The event-queue invariant -/

/-- C9: the property that every event in the event queue has `time ≥ current_time` is
kept by `schedule(trigger, extra_delay)` when the offset of the trigger and `extra_delay`
are not negative, by the re-arming call `__schedule(trigger, period - offset)` made in
`next` for a trigger of positive period, by a whole iteration of the drain loop of
`next`, and by `wait_until(target)` when no event in the queue is earlier than `target`
(so when `target` is the least event time, and when the queue is empty). -/
theorem evt_inv_preserved (w : World) (P : Program) (s : State) (hinv : evt_inv s) :
    (∀ trigger extra_delay, (P.trigger trigger).offset ≥ 0 → extra_delay ≥ 0 →
        evt_inv (schedule P s trigger extra_delay).1) ∧
      (∀ trigger, (P.trigger trigger).period > 0 →
        evt_inv (__schedule P s trigger
          ((P.trigger trigger).period - (P.trigger trigger).offset)).1) ∧
      (∀ s', drain_body P s = .ok s' → evt_inv s') ∧
      (∀ target, (∀ e ∈ s.event_q, target ≤ e.time) → evt_inv (wait_until w s target).1) := by
  refine ⟨?_, ?_, ?_, ?_⟩
  · intro trigger extra_delay hoff hdelay
    obtain ⟨⟨e, hq, _, htime⟩, hct, _⟩ := schedule_spec P s trigger extra_delay
    intro x hx
    rw [hq] at hx
    rw [hct]
    rcases List.mem_append.1 hx with hx | hx
    · exact hinv x hx
    · rw [List.mem_singleton.1 hx, htime]; omega
  · intro trigger hper
    obtain ⟨⟨e, hq, _, htime⟩, hct, _⟩ := __schedule_spec P s trigger
      ((P.trigger trigger).period - (P.trigger trigger).offset)
    intro x hx
    rw [hq] at hx
    rw [hct]
    rcases List.mem_append.1 hx with hx | hx
    · exact hinv x hx
    · rw [List.mem_singleton.1 hx, htime]; omega
  · intro s' hs'
    cases hpop : pqueue_pop get_evt_pri s.event_q with
    | none => simp [drain_body, hpop] at hs'
    | some er =>
      obtain ⟨event, rest⟩ := er
      obtain ⟨s'', hs'', hct, _, _, hpos, hzero⟩ := drain_body_spec P s event rest hpop
      rw [hs''] at hs'
      cases hs'
      have hrest : ∀ x ∈ rest, s.current_time ≤ x.time := fun x hx =>
        hinv x (pqueue_pop_rest_subset get_evt_pri s.event_q event rest hpop x hx)
      intro x hx
      rw [hct]
      by_cases hper : (P.trigger event.trigger).period > 0
      · obtain ⟨e, hq, _, htime⟩ := hpos hper
        rw [hq] at hx
        rcases List.mem_append.1 hx with hx | hx
        · exact hrest x hx
        · rw [List.mem_singleton.1 hx, htime]; omega
      · rw [hzero hper] at hx
        exact hrest x hx
  · intro target htarget
    obtain ⟨hq, _, _, _, _, hct⟩ := wait_until_frame w s target
    have hle := clamped_target_le s target
    intro x hx
    rw [hq] at hx
    have h1 := htarget x hx
    have h2 := hinv x hx
    rcases hct with h | h | h <;> omega

theorem evt_inv_preserved_witness :
    evt_inv (schedule (one_trigger 5 0) waiting_state 0 0).1 ∧
      evt_inv (wait_until (still_world 150 true) waiting_state 200).1 :=
  ⟨(evt_inv_preserved (still_world 150 true) (one_trigger 5 0) waiting_state (by decide)).1
      0 0 (by decide) (by decide),
    (evt_inv_preserved (still_world 150 true) (one_trigger 5 0) waiting_state
      (by decide)).2.2.2 200 (by decide)⟩

/-! ## Order of the reactions within a tag -/

/-- C4: consider the reaction loop of `next` started in a state `s`, and suppose that in
this run every reaction that an iteration adds to the reaction queue has an index
strictly greater than the reaction executed by that iteration.  Then after any number
of iterations the calls of reactions popped from the queue, in the order in which they
were made, have nondecreasing indices (so a call of a reaction of smaller index is never
preceded by a call of a reaction of greater index); the state returned by the loop is
the state after that many iterations; and so every call of `next` whose drain loop ends
in `s` and which returns has made its calls of popped reactions in nondecreasing order
of index. -/
theorem reactions_run_in_index_order (w : World) (P : Program) (s : State)
    (h : enqueues_upward w P s) :
    (∀ n, ∃ calls, (reaction_run w P n s).log = s.log ++ calls ∧
        (popped_calls calls).Pairwise (fun a b => a.index P ≤ b.index P)) ∧
      (∀ fuel s', reaction_loop w P fuel s = .ok s' → s' = reaction_run w P fuel s) ∧
      (∀ fuel s0 s' r,
        drain_loop P fuel (__start_time_step (wait_until w s0 (next_time s0)).1) = .ok s →
        next w P fuel s0 = .ok (s', r) →
        ∃ calls, s'.log = s0.log ++ calls ∧
          (popped_calls calls).Pairwise (fun a b => a.index P ≤ b.index P)) := by
  have hrun : ∀ n, ∃ calls, (reaction_run w P n s).log = s.log ++ calls ∧
      (popped_calls calls).Pairwise (fun a b => a.index P ≤ b.index P) := by
    intro n
    obtain ⟨calls, h1, h2, _⟩ := reaction_run_order w P n s 0 h (fun _ _ => Nat.zero_le _)
    exact ⟨calls, h1, h2⟩
  have hloop : ∀ fuel s', reaction_loop w P fuel s = .ok s' → s' = reaction_run w P fuel s := by
    intro fuel s' hs'
    rw [reaction_loop_eq] at hs'
    split_ifs at hs' with hq
    · cases hs'; rfl
  refine ⟨hrun, hloop, ?_⟩
  intro fuel s0 s' r hdrain hnext
  rcases next_cases w P fuel s0 s' r hnext with hlog | htag
  · exact ⟨[], by simp [hlog], by simp [popped_calls]⟩
  · unfold next_tag at htag
    rw [hdrain] at htag
    simp only at htag
    cases hl : reaction_loop w P fuel s with
    | error f => rw [hl] at htag; simp at htag
    | ok s1 =>
      rw [hl] at htag
      simp only [Except.ok.injEq, Prod.mk.injEq] at htag
      obtain ⟨calls, h1, h2⟩ := hrun fuel
      have hs1 : s1 = reaction_run w P fuel s := hloop fuel s1 hl
      have hlog0 : s.log = s0.log := by
        obtain ⟨_, _, d3⟩ := drain_loop_frame P fuel _ s hdrain
        rw [d3]
        exact (wait_until_frame w s0 (next_time s0)).2.2.2.2.1
      refine ⟨calls, ?_, h2⟩
      rw [← htag.1, hs1, h1, hlog0]

theorem reactions_run_in_index_order_witness :
    ∃ calls, (reaction_run producing_world two_reactions 5
          { start_state with reaction_q := [3, 0] }).log
        = ({ start_state with reaction_q := [3, 0] } : State).log ++ calls ∧
      (popped_calls calls).Pairwise (fun a b => a.index two_reactions ≤ b.index two_reactions) :=
  (reactions_run_in_index_order producing_world two_reactions
    { start_state with reaction_q := [3, 0] }
    (enqueues_upward_of_topo_sorted _ _ _ two_reactions_topo_sorted)).1 5

/-! ## Consecutive tags -/

/-- C10, refuted as stated: in fast mode, with events for trigger 0 (offset 0) at times
100 and 200, the first call of `next` handles the event at time 100 and runs reaction 0
with `current_time = 100`; the reaction calls `schedule` with zero delay, which puts an
event at time 100 into the queue.  The second call of `next` handles that event and runs
reaction 0 again with `current_time = 100`, which is not greater than 100.  Both calls
return 1. -/
theorem next_repeats_tag_after_zero_delay :
    (next rescheduling_world (one_trigger 0 0) 5 fast_state).toOption.map
        (fun r => (r.1.current_time, r.1.log, r.2))
        = some (100, [{ reaction := 0, time := 100, violation := false }], 1) ∧
      ((next rescheduling_world (one_trigger 0 0) 5 fast_state).toOption.bind
          (fun r => (next rescheduling_world (one_trigger 0 0) 5 r.1).toOption)).map
        (fun r => (r.1.current_time, r.1.log, r.2))
        = some (100, [{ reaction := 0, time := 100, violation := false },
                      { reaction := 0, time := 100, violation := false }], 1) := by
  decide

/-- C10, amended: take two consecutive calls of `next`, the first returning 1 (so that it
drained events and ran the reaction loop), and suppose that after the first call no
queued event lies before `current_time`, that the queue is not empty, and that
`wait_until` returns 0 in the second call.  Then every reaction called by the first call
is called at the first call's final `current_time`, every reaction called by the second
call is called at the second call's final `current_time`, the latter is the time of the
earliest queued event and is not less than the former; it is strictly greater exactly
when no event left in the queue by the first call has time equal to `current_time`, and
equal when there is such an event (as after a `schedule` with zero offset and zero
delay). -/
theorem current_time_between_tags (w : World) (P : Program) (fuel1 fuel2 : Nat)
    (s0 s1 s2 : State) (r2 : Int) (e : event_t)
    (hfirst : next w P fuel1 s0 = .ok (s1, 1))
    (hinv : evt_inv s1)
    (hpeek : pqueue_peek get_evt_pri s1.event_q = some e)
    (hwait : (wait_until w s1 e.time).2 = 0)
    (hsecond : next w P fuel2 s1 = .ok (s2, r2)) :
    (∃ calls1 calls2, s1.log = s0.log ++ calls1 ∧ s2.log = s1.log ++ calls2 ∧
        (∀ c ∈ calls1, c.time = s1.current_time) ∧
        (∀ c ∈ calls2, c.time = s2.current_time)) ∧
      s2.current_time = e.time ∧
      s1.current_time ≤ s2.current_time ∧
      (s1.current_time < s2.current_time ↔ ∀ x ∈ s1.event_q, x.time ≠ s1.current_time) ∧
      ((∃ x ∈ s1.event_q, x.time = s1.current_time) → s2.current_time = s1.current_time) := by
  have htag1 := next_continue w P fuel1 s0 s1 hfirst
  obtain ⟨a1, calls1, a2, a3⟩ := next_tag_frame w P fuel1 _ s1 1 htag1
  obtain ⟨_, _, _, _, wlog1, _⟩ := wait_until_frame w s0 (next_time s0)
  obtain ⟨_, hnext⟩ := next_after_wait w P fuel2 s1 e hpeek hwait
  rw [hnext] at hsecond
  obtain ⟨b1, calls2, b2, b3⟩ := next_tag_frame w P fuel2 _ s2 r2 hsecond
  obtain ⟨_, _, _, _, wlog2, _⟩ := wait_until_frame w s1 e.time
  have hreach : (wait_until w s1 e.time).1.current_time = e.time :=
    (wait_until_returns w s1 e.time).2 hwait
  have hs2 : s2.current_time = e.time := b1.trans hreach
  obtain ⟨rest, hpop⟩ := pqueue_peek_some get_evt_pri s1.event_q e hpeek
  have hmem : e ∈ s1.event_q := pqueue_pop_mem get_evt_pri s1.event_q e rest hpop
  have hleast : ∀ x ∈ s1.event_q, e.time ≤ x.time :=
    pqueue_pop_least get_evt_pri s1.event_q e rest hpop
  have hle : s1.current_time ≤ e.time := hinv e hmem
  refine ⟨⟨calls1, calls2, ?_, ?_, ?_, ?_⟩, hs2, ?_, ?_, ?_⟩
  · rw [a2, wlog1]
  · rw [b2, wlog2]
  · intro c hc; rw [a3 c hc, a1]
  · intro c hc; rw [b3 c hc, b1]
  · rw [hs2]; exact hle
  · rw [hs2]
    constructor
    · intro hlt x hx heq
      have := hleast x hx
      omega
    · intro hne
      have := hne e hmem
      omega
  · rintro ⟨x, hx, heq⟩
    have := hleast x hx
    rw [hs2]
    omega

theorem current_time_between_tags_witness :
    fast_state_2.current_time = 200 ∧ fast_state_1.current_time ≤ fast_state_2.current_time ∧
      (fast_state_1.current_time < fast_state_2.current_time ↔
        ∀ x ∈ fast_state_1.event_q, x.time ≠ fast_state_1.current_time) :=
  have h := current_time_between_tags (still_world 0 false) (one_trigger 0 0) 5 5
    fast_state fast_state_1 fast_state_2 1 { addr := 1, time := 200, trigger := 0 }
    rfl (by decide) (by decide) (by decide) rfl
  ⟨h.2.1, h.2.2.1, h.2.2.2.1⟩

/-! ## Further facts about the reaction loop -/

theorem violations_log (w : World) (P : Program) (l : List Nat) (s : State) :
    (l.foldl (fun s r => invoke w P s r true) s).log
      = s.log ++ l.map (fun r => { reaction := r, time := s.current_time, violation := true }) := by
  induction l generalizing s with
  | nil => simp
  | cons a l ih =>
    simp only [List.foldl_cons, List.map_cons]
    obtain ⟨g1, _, _, g4⟩ := invoke_frame w P s a true
    rw [ih (invoke w P s a true), g4, g1]
    simp

/-- The log after the deadline check: the calls of the violation reactions are added
exactly when the reaction has a positive deadline, the clock reads later than
`current_time + deadline`, and there is a violation trigger. -/
theorem check_deadline_log (w : World) (P : Program) (s : State) (reaction : Nat) :
    (check_deadline w P s reaction).log =
      s.log ++
        (if (P.reaction reaction).deadline > 0 ∧
            (w.clock s.clock_reads).ns > s.current_time + (P.reaction reaction).deadline then
          match (P.reaction reaction).deadline_violation with
          | none => []
          | some trigger => violation_calls P s trigger
        else []) := by
  unfold check_deadline
  by_cases h1 : (P.reaction reaction).deadline > 0
  · by_cases h2 : (w.clock s.clock_reads).ns > s.current_time + (P.reaction reaction).deadline
    · simp only [h1, h2, if_true, and_self]
      cases hv : (P.reaction reaction).deadline_violation with
      | none => simp
      | some trigger =>
        simp only [violation_calls]
        exact violations_log w P (P.trigger trigger).reactions
          { s with clock_reads := s.clock_reads + 1 }
    · simp [h1, h2]
  · simp [h1]

theorem reaction_step_log (w : World) (P : Program) (s : State) (reaction : Nat) :
    (reaction_step w P s reaction).log =
      (check_deadline w P s reaction).log ++
        [{ reaction := reaction, time := s.current_time, violation := false }] := by
  unfold reaction_step
  obtain ⟨a1, _⟩ := check_deadline_frame w P s reaction
  obtain ⟨_, _, _, b4⟩ := invoke_frame w P (check_deadline w P s reaction) reaction false
  obtain ⟨_, _, c3, _⟩ :=
    propagate_outputs_frame P (invoke w P (check_deadline w P s reaction) reaction false) reaction
  rw [c3, b4, a1]

/-! ## Deadlines -/

/-- C11: let a reaction be popped from the reaction queue in state `s`, and let `p` be the
clock reading available then.  If its deadline is positive, `p > current_time + deadline`
and it has a violation trigger, the step logs one call of each reaction of that trigger,
in array order, and then the call of the reaction body; in every other case it logs the
call of the reaction body alone.  So the body is called exactly once in every case.
The deadline check and the call of the body leave the reaction queue as it is: the
violation reactions are called directly and not put into the queue. -/
theorem deadline_violation_handling (w : World) (P : Program) (s : State) (reaction : Nat) :
    (∀ trigger, (P.reaction reaction).deadline > 0 →
        (w.clock s.clock_reads).ns > s.current_time + (P.reaction reaction).deadline →
        (P.reaction reaction).deadline_violation = some trigger →
        (reaction_step w P s reaction).log =
          s.log ++ violation_calls P s trigger ++
            [{ reaction := reaction, time := s.current_time, violation := false }]) ∧
      (¬ ((P.reaction reaction).deadline > 0 ∧
          (w.clock s.clock_reads).ns > s.current_time + (P.reaction reaction).deadline ∧
          (P.reaction reaction).deadline_violation ≠ none) →
        (reaction_step w P s reaction).log =
          s.log ++ [{ reaction := reaction, time := s.current_time, violation := false }]) ∧
      (check_deadline w P s reaction).reaction_q = s.reaction_q ∧
      (invoke w P (check_deadline w P s reaction) reaction false).reaction_q = s.reaction_q := by
  refine ⟨?_, ?_, ?_, ?_⟩
  · intro trigger h1 h2 h3
    rw [reaction_step_log, check_deadline_log]
    simp [h1, h2, h3]
  · intro h
    rw [reaction_step_log, check_deadline_log]
    by_cases h12 : (P.reaction reaction).deadline > 0 ∧
        (w.clock s.clock_reads).ns > s.current_time + (P.reaction reaction).deadline
    · have h3 : (P.reaction reaction).deadline_violation = none := by
        by_contra hne
        exact h ⟨h12.1, h12.2, hne⟩
      simp [h12, h3]
    · simp [h12]
  · exact (check_deadline_frame w P s reaction).2.2.1
  · rw [(invoke_frame w P (check_deadline w P s reaction) reaction false).2.2.1]
    exact (check_deadline_frame w P s reaction).2.2.1

theorem deadline_violation_handling_witness :
    (reaction_step (still_world 1000 false) deadline_program waiting_state 0).log =
      [{ reaction := 5, time := 100, violation := true },
       { reaction := 6, time := 100, violation := true },
       { reaction := 0, time := 100, violation := false }] :=
  (deadline_violation_handling (still_world 1000 false) deadline_program waiting_state 0).1 1
    (by decide) (by decide) (by decide)

/-! ## What `next` returns -/

/-- C13: when the event queue is empty and `-wait` was not given, `next` returns 0 at
once and the whole state is as before: `current_time`, `stop_time`, the three queues,
and also the counts of clock readings, of calls of `__start_time_step` and of reaction
invocations. -/
theorem next_done_on_empty_queue (w : World) (P : Program) (fuel : Nat) (s : State)
    (hempty : s.event_q = []) (hwait : s.wait_specified = false) :
    next w P fuel s = .ok (s, 0) := by
  have hpeek : pqueue_peek get_evt_pri s.event_q = none :=
    (pqueue_peek_eq_none get_evt_pri s.event_q).2 hempty
  unfold next
  simp [hpeek, hwait]

theorem next_done_on_empty_queue_witness :
    next (still_world 150 true) (one_trigger 0 0) 0 start_state = .ok (start_state, 0) :=
  next_done_on_empty_queue (still_world 150 true) (one_trigger 0 0) 0 start_state rfl rfl

/-- From `__start_time_step` to the end of `next`: when the drain loop ends in `s1` and the
reaction loop empties the queue within the fuel, the result is the state reached by the
reaction loop, with 0 when `current_time = stop_time` and 1 otherwise. -/
theorem next_tag_eq (w : World) (P : Program) (fuel : Nat) (s s1 : State)
    (hdrain : drain_loop P fuel (__start_time_step s) = .ok s1)
    (hq : (reaction_run w P fuel s1).reaction_q = []) :
    next_tag w P fuel s =
      .ok (reaction_run w P fuel s1, if s.current_time = s.stop_time then 0 else 1) := by
  obtain ⟨d1, d2, _⟩ := drain_loop_frame P fuel _ s1 hdrain
  obtain ⟨r1, r2, _⟩ := reaction_run_times w P fuel s1
  have hct : (reaction_run w P fuel s1).current_time = s.current_time := r1.trans d1
  have hst : (reaction_run w P fuel s1).stop_time = s.stop_time := r2.trans d2
  unfold next_tag
  rw [hdrain]
  simp only
  rw [reaction_loop_eq, if_pos hq]
  simp only [hct, hst]

theorem next_tag_returns (w : World) (P : Program) (fuel : Nat) (s s' : State) (r : Int)
    (h : next_tag w P fuel s = .ok (s', r)) :
    ∃ s1, drain_loop P fuel (__start_time_step s) = .ok s1 ∧
      (reaction_run w P fuel s1).reaction_q = [] ∧ s' = reaction_run w P fuel s1 := by
  unfold next_tag at h
  cases hd : drain_loop P fuel (__start_time_step s) with
  | error f => rw [hd] at h; simp at h
  | ok s1 =>
    rw [hd] at h
    simp only at h
    rw [reaction_loop_eq] at h
    split_ifs at h with hq
    · simp only [Except.ok.injEq, Prod.mk.injEq] at h
      exact ⟨s1, rfl, hq, h.1.symm⟩

/-- C14: a call of `next` that gets to the reaction loop (the part `next_tag` of `next`)
and whose loops end returns the state in which the reaction queue is empty, with
`current_time` and `stop_time` as they were when the part began, and the value 0 if
`current_time = stop_time` then and 1 otherwise; and these are the only results it can
have.  In particular it returns 1 when `stop_time = 0` and `current_time > 0`, and a call
of `next` that returns 1 ends with `current_time ≠ stop_time`. -/
theorem next_return_value (w : World) (P : Program) (fuel : Nat) (s : State) :
    (∀ s1, drain_loop P fuel (__start_time_step s) = .ok s1 →
        (reaction_run w P fuel s1).reaction_q = [] →
        next_tag w P fuel s =
          .ok (reaction_run w P fuel s1, if s.current_time = s.stop_time then 0 else 1)) ∧
      (∀ s' r, next_tag w P fuel s = .ok (s', r) →
        s'.reaction_q = [] ∧ s'.current_time = s.current_time ∧ s'.stop_time = s.stop_time ∧
          (s'.current_time = s'.stop_time → r = 0) ∧ (s'.current_time ≠ s'.stop_time → r = 1) ∧
          (s.stop_time = 0 → s.current_time > 0 → r = 1)) ∧
      (∀ s', next w P fuel s = .ok (s', 1) → s'.current_time ≠ s'.stop_time) := by
  have key : ∀ (t t' : State) (r : Int), next_tag w P fuel t = .ok (t', r) →
      t'.reaction_q = [] ∧ t'.current_time = t.current_time ∧ t'.stop_time = t.stop_time ∧
        r = if t.current_time = t.stop_time then 0 else 1 := by
    intro t t' r h
    obtain ⟨s1, hdrain, hq, hs'⟩ := next_tag_returns w P fuel t t' r h
    rw [next_tag_eq w P fuel t s1 hdrain hq] at h
    simp only [Except.ok.injEq, Prod.mk.injEq] at h
    obtain ⟨d1, d2, _⟩ := drain_loop_frame P fuel _ s1 hdrain
    obtain ⟨r1, r2, _⟩ := reaction_run_times w P fuel s1
    refine ⟨hs' ▸ hq, ?_, ?_, h.2.symm⟩
    · rw [hs']; exact r1.trans d1
    · rw [hs']; exact r2.trans d2
  refine ⟨fun s1 hdrain hq => next_tag_eq w P fuel s s1 hdrain hq, ?_, ?_⟩
  · intro s' r h
    obtain ⟨k1, k2, k3, k4⟩ := key s s' r h
    refine ⟨k1, k2, k3, ?_, ?_, ?_⟩
    · intro heq
      rw [k2, k3] at heq
      rw [k4, if_pos heq]
    · intro hne
      rw [k2, k3] at hne
      rw [k4, if_neg hne]
    · intro h0 hpos
      have hne : ¬ s.current_time = s.stop_time := by omega
      rw [k4, if_neg hne]
  · intro s' h heq
    have htag := next_continue w P fuel s s' h
    obtain ⟨_, k2, k3, k4⟩ := key _ s' 1 htag
    rw [k2, k3] at heq
    rw [if_pos heq] at k4
    exact absurd k4 (by decide)

theorem next_return_value_witness :
    next_tag (still_world 0 false) (one_trigger 0 0) 5 { fast_state with current_time := 100 } =
      .ok (fast_state_1, 1) :=
  (next_return_value (still_world 0 false) (one_trigger 0 0) 5
    { fast_state with current_time := 100 }).1
    { fast_state_1 with reaction_q := [0], invocations := 0, log := [] } rfl rfl

/-! ## `__schedule` and the handles -/

/-- C18: for every trigger and every delay, negative ones included, the event queue
after `__schedule(trigger, delay)` is the queue before plus exactly one event, whose
trigger is the given one and whose time is `current_time + trigger.offset + delay`;
`current_time`, `stop_time` and the reaction queue are as before. -/
theorem __schedule_inserts_one_event (P : Program) (s : State) (trigger : Nat) (delay : Int) :
    (∃ e, (__schedule P s trigger delay).1.event_q = s.event_q ++ [e] ∧
        e.trigger = trigger ∧
        e.time = s.current_time + (P.trigger trigger).offset + delay) ∧
      (__schedule P s trigger delay).1.current_time = s.current_time ∧
      (__schedule P s trigger delay).1.stop_time = s.stop_time ∧
      (__schedule P s trigger delay).1.reaction_q = s.reaction_q := by
  obtain ⟨h1, h2, h3, h4, _⟩ := __schedule_spec P s trigger delay
  exact ⟨h1, h2, h3, h4⟩

theorem __schedule_handle (P : Program) (s : State) (trigger : Nat) (delay : Int) :
    (__schedule P s trigger delay).2 = s.__handle ∧
      (__schedule P s trigger delay).1.__handle = (s.__handle + 1) % 2 ^ 64 := by
  unfold __schedule
  cases h : pqueue_pop get_evt_pri s.recycle_q with
  | none => simp
  | some er => simp

theorem run_schedule_calls_handles (P : Program) (calls : List schedule_call) (s : State)
    (h : s.__handle + calls.length ≤ 2 ^ 64) :
    (run_schedule_calls P calls s).2 = List.range' s.__handle calls.length := by
  induction calls generalizing s with
  | nil => simp [run_schedule_calls]
  | cons c cs ih =>
    simp only [List.length_cons] at h
    have hstep : ∀ r : State × Nat,
        r = (if c.internal then __schedule P s c.trigger c.delay
          else schedule P s c.trigger c.delay) →
        r.2 = s.__handle ∧ r.1.__handle = (s.__handle + 1) % 2 ^ 64 := by
      intro r hr
      by_cases hc : c.internal = true
      · rw [if_pos hc] at hr
        rw [hr]
        exact __schedule_handle P s c.trigger c.delay
      · rw [if_neg hc] at hr
        rw [hr]
        exact __schedule_handle P s c.trigger _
    obtain ⟨h1, h2⟩ := hstep _ rfl
    simp only [run_schedule_calls, List.length_cons, List.range'_succ]
    rw [h1]
    cases cs with
    | nil => simp [run_schedule_calls]
    | cons c2 cs2 =>
      simp only [List.length_cons] at h
      have hmod : (s.__handle + 1) % 2 ^ 64 = s.__handle + 1 := Nat.mod_eq_of_lt (by omega)
      rw [hmod] at h2
      rw [ih _ (by rw [h2]; simp only [List.length_cons]; omega), h2]

/-- C19: `__schedule` and `schedule` return the value of the handle counter and add one
to it (modulo 2^64); the counter starts at 0, so the first call returns 0; and as long
as the counter stays below 2^64, the handles returned by any sequence of calls are
`h, h + 1, h + 2, ...` from the value `h` of the counter before the first call, so each
is strictly greater than every earlier one.  `wait_until` leaves the counter alone. -/
theorem handles_increase (w : World) (P : Program) (s : State) :
    (∀ trigger delay,
        (__schedule P s trigger delay).2 = s.__handle ∧
          (__schedule P s trigger delay).1.__handle = (s.__handle + 1) % 2 ^ 64 ∧
          (schedule P s trigger delay).2 = s.__handle ∧
          (schedule P s trigger delay).1.__handle = (s.__handle + 1) % 2 ^ 64) ∧
      start_state.__handle = 0 ∧
      (∀ calls : List schedule_call, s.__handle + calls.length ≤ 2 ^ 64 →
        (run_schedule_calls P calls s).2 = List.range' s.__handle calls.length ∧
          (run_schedule_calls P calls s).2.Pairwise (fun a b => a < b)) ∧
      (∀ target, (wait_until w s target).1.__handle = s.__handle) := by
  refine ⟨?_, rfl, ?_, ?_⟩
  · intro trigger delay
    exact ⟨(__schedule_handle P s trigger delay).1, (__schedule_handle P s trigger delay).2,
      (__schedule_handle P s trigger _).1, (__schedule_handle P s trigger _).2⟩
  · intro calls hlen
    have heq := run_schedule_calls_handles P calls s hlen
    refine ⟨heq, ?_⟩
    rw [heq]
    exact List.pairwise_lt_range' s.__handle calls.length
  · intro target
    unfold wait_until
    simp only
    split_ifs <;> rfl

theorem handles_increase_witness :
    (run_schedule_calls (one_trigger 5 0)
        [{ internal := false, trigger := 0, delay := 0 },
         { internal := true, trigger := 0, delay := -3 },
         { internal := false, trigger := 0, delay := 7 }] start_state).2 = [0, 1, 2] :=
  ((handles_increase (still_world 0 false) (one_trigger 5 0) start_state).2.2.1
    [{ internal := false, trigger := 0, delay := 0 },
     { internal := true, trigger := 0, delay := -3 },
     { internal := false, trigger := 0, delay := 7 }] (by decide)).1

/-! ## Reaching the stop time in fast mode -/

/-- In fast mode with a stop time set, `next` returns 0 with `current_time = stop_time`
and nothing else changed when the head event lies beyond the stop time, and also when
the queue is empty, `-wait` was given and the stop time is less than `LLONG_MAX`. -/
theorem next_stops_at_stop_time (w : World) (P : Program) (fuel : Nat) (s : State)
    (hfast : s.fast = true) (hstop : s.stop_time > 0)
    (hcase : (s.event_q = [] ∧ s.wait_specified = true ∧ s.stop_time < LLONG_MAX) ∨
      ∃ e, pqueue_peek get_evt_pri s.event_q = some e ∧ e.time > s.stop_time) :
    next w P fuel s = .ok ({ s with current_time := s.stop_time }, 0) := by
  have hbeyond : next_time s > s.stop_time := by
    rcases hcase with ⟨hq, _, hlt⟩ | ⟨e, hpeek, he⟩
    · have hpeek : pqueue_peek get_evt_pri s.event_q = none :=
        (pqueue_peek_eq_none get_evt_pri s.event_q).2 hq
      simp only [next_time, hpeek]
      exact hlt
    · simp only [next_time, hpeek]
      exact he
  have hd : decide (s.stop_time > 0 ∧ next_time s > s.stop_time) = true :=
    decide_eq_true ⟨hstop, hbeyond⟩
  have hw : wait_until w s (next_time s) = ({ s with current_time := s.stop_time }, -1) := by
    unfold wait_until
    simp only [hd, hfast, if_true]
    simp
  have hfirst : ¬ ((pqueue_peek get_evt_pri s.event_q).isNone && !s.wait_specified) = true := by
    rcases hcase with ⟨_, hwait, _⟩ | ⟨e, hpeek, _⟩
    · simp [hwait]
    · simp [hpeek]
  unfold next
  simp only [hfirst, hw, Bool.false_eq_true, if_false]
  simp [next_gives_up]

/-- C12, evaluated on the code: let `-fast` and `-wait` be set and let the clock read
1700000000 s at `initialize`, with a duration of `LLONG_MAX - 1700000000000000000` ns.
Then `initialize` sets `stop_time = current_time + duration = LLONG_MAX`, which is
positive, and `current_time ≤ stop_time`.  With an empty event queue `next` asks
`wait_until` for `LLONG_MAX`, which is not greater than `stop_time`, so `wait_until`
returns 0 and `next` goes on to `__start_time_step` and pops from the empty event
queue: the run ends in the dereference of the null event instead of returning 0. -/
theorem next_at_greatest_stop_time :
    (initialize_runtime epoch_world
        (fast_wait_state (LLONG_MAX - 1700000000000000000))).stop_time = LLONG_MAX ∧
      (initialize_runtime epoch_world
        (fast_wait_state (LLONG_MAX - 1700000000000000000))).current_time
        = 1700000000000000000 ∧
      (initialize_runtime epoch_world
        (fast_wait_state (LLONG_MAX - 1700000000000000000))).event_q = [] ∧
      (wait_until epoch_world (initialize_runtime epoch_world
        (fast_wait_state (LLONG_MAX - 1700000000000000000))) LLONG_MAX).2 = 0 ∧
      next epoch_world (one_trigger 0 0) 5
        (initialize_runtime epoch_world (fast_wait_state (LLONG_MAX - 1700000000000000000)))
        = .error .null_event := by
  refine ⟨by decide, by decide, by decide, by decide, rfl⟩

/-! ## Facts about the event pool -/

theorem pool_inv_iff (s : State) : pool_inv s ↔ numbered (event_addrs s) s.allocated := by
  unfold pool_inv numbered event_addrs
  simp only [List.length_map, List.length_append]
  tauto

theorem numbered_perm (l l' : List Nat) (n : Nat) (hp : l.Perm l') (h : numbered l n) :
    numbered l' n := by
  obtain ⟨h1, h2, h3⟩ := h
  exact ⟨hp.nodup_iff.1 h1, fun a ha => h2 a (hp.symm.subset ha), hp.length_eq ▸ h3⟩

theorem numbered_snoc (l : List Nat) (n : Nat) (h : numbered l n) :
    numbered (l ++ [n]) (n + 1) := by
  obtain ⟨h1, h2, h3⟩ := h
  refine ⟨?_, ?_, ?_⟩
  · rw [List.nodup_append]
    refine ⟨h1, List.nodup_singleton n, ?_⟩
    intro a ha hb
    rw [List.mem_singleton] at hb
    have := h2 a ha
    omega
  · intro a ha
    rcases List.mem_append.1 ha with ha | ha
    · have := h2 a ha; omega
    · rw [List.mem_singleton] at ha; omega
  · simp [h3]

/-- The two ways in which `__schedule` gets its record: a fresh one, with the next
address, when the pool is empty, and otherwise the record popped from the pool. -/
theorem __schedule_cases (P : Program) (s : State) (trigger : Nat) (delay : Int) :
    (s.recycle_q = [] ∧
        (__schedule P s trigger delay).1 =
          { s with allocated := s.allocated + 1
                   event_q := s.event_q ++
                     [{ addr := s.allocated
                        time := s.current_time + (P.trigger trigger).offset + delay
                        trigger := trigger }]
                   __handle := (s.__handle + 1) % 2 ^ 64 }) ∨
      ∃ e rest, pqueue_pop get_evt_pri s.recycle_q = some (e, rest) ∧
        (__schedule P s trigger delay).1 =
          { s with recycle_q := rest
                   event_q := s.event_q ++
                     [{ addr := e.addr
                        time := s.current_time + (P.trigger trigger).offset + delay
                        trigger := trigger }]
                   __handle := (s.__handle + 1) % 2 ^ 64 } := by
  unfold __schedule
  cases h : pqueue_pop get_evt_pri s.recycle_q with
  | none =>
    left
    exact ⟨(pqueue_pop_eq_none _ _).1 h, by simp [pqueue_insert]⟩
  | some er =>
    right
    obtain ⟨e, rest⟩ := er
    exact ⟨e, rest, rfl, by simp [pqueue_insert]⟩

/-- `__schedule` keeps the numbering of the records, also while some records (with
addresses `held`) are in neither queue. -/
theorem __schedule_numbered (P : Program) (s : State) (trigger : Nat) (delay : Int)
    (held : List Nat) (h : numbered (event_addrs s ++ held) s.allocated) :
    numbered (event_addrs (__schedule P s trigger delay).1 ++ held)
      (__schedule P s trigger delay).1.allocated := by
  rcases __schedule_cases P s trigger delay with ⟨hq, heq⟩ | ⟨e, rest, hpop, heq⟩
  · rw [heq]
    have hperm : (event_addrs s ++ held ++ [s.allocated]).Perm
        (event_addrs { s with allocated := s.allocated + 1
                              event_q := s.event_q ++
                                [{ addr := s.allocated
                                   time := s.current_time + (P.trigger trigger).offset + delay
                                   trigger := trigger }]
                              __handle := (s.__handle + 1) % 2 ^ 64 } ++ held) := by
      simp only [event_addrs, hq, List.append_nil, List.map_append, List.map_cons, List.map_nil,
        List.append_assoc]
      exact List.Perm.append_left _ List.perm_append_comm
    exact numbered_perm _ _ _ hperm (numbered_snoc _ _ h)
  · rw [heq]
    have hpool : s.recycle_q.Perm (e :: rest) := pqueue_pop_perm _ _ _ _ hpop
    have hperm : (event_addrs s ++ held).Perm
        (event_addrs { s with recycle_q := rest
                              event_q := s.event_q ++
                                [{ addr := e.addr
                                   time := s.current_time + (P.trigger trigger).offset + delay
                                   trigger := trigger }]
                              __handle := (s.__handle + 1) % 2 ^ 64 } ++ held) := by
      simp only [event_addrs, List.map_append, List.map_cons, List.map_nil, List.append_assoc]
      refine List.Perm.append_left _ ?_
      have hp := (hpool.map event_t.addr).append_right held
      simpa using hp
    exact numbered_perm _ _ _ hperm h

theorem __schedule_pool_inv (P : Program) (s : State) (trigger : Nat) (delay : Int)
    (h : pool_inv s) : pool_inv (__schedule P s trigger delay).1 := by
  rw [pool_inv_iff] at h ⊢
  have := __schedule_numbered P s trigger delay [] (by simpa using h)
  simpa using this

theorem pool_inv_of_eq (s s' : State) (h1 : s'.event_q = s.event_q)
    (h2 : s'.recycle_q = s.recycle_q) (h3 : s'.allocated = s.allocated) (h : pool_inv s) :
    pool_inv s' := by
  unfold pool_inv event_addrs at h ⊢
  rw [h1, h2, h3]
  exact h

theorem foldl_keeps {α β : Type} (I : β → Prop) (f : β → α → β)
    (hstep : ∀ b a, I b → I (f b a)) (l : List α) (b : β) (hb : I b) : I (l.foldl f b) := by
  induction l generalizing b with
  | nil => exact hb
  | cons a l ih => exact ih (f b a) (hstep b a hb)

theorem apply_action_pool_inv (P : Program) (s : State) (a : Action) (h : pool_inv s) :
    pool_inv (apply_action P s a) := by
  cases a with
  | schedule t d => exact __schedule_pool_inv P s t _ h
  | stop => exact pool_inv_of_eq s _ rfl rfl rfl h
  | write f v => exact pool_inv_of_eq s _ rfl rfl rfl h

theorem invoke_pool_inv (w : World) (P : Program) (s : State) (r : Nat) (v : Bool)
    (h : pool_inv s) : pool_inv (invoke w P s r v) := by
  unfold invoke
  exact foldl_keeps pool_inv (apply_action P) (fun b a hb => apply_action_pool_inv P b a hb) _ _
    (pool_inv_of_eq s _ rfl rfl rfl h)

theorem check_deadline_pool_inv (w : World) (P : Program) (s : State) (r : Nat)
    (h : pool_inv s) : pool_inv (check_deadline w P s r) := by
  unfold check_deadline
  by_cases h1 : (P.reaction r).deadline > 0
  · simp only [h1, if_true]
    by_cases h2 : (w.clock s.clock_reads).ns > s.current_time + (P.reaction r).deadline
    · simp only [h2, if_true]
      cases hv : (P.reaction r).deadline_violation with
      | none => exact pool_inv_of_eq s _ rfl rfl rfl h
      | some trigger =>
        exact foldl_keeps pool_inv (fun s r => invoke w P s r true)
          (fun b a hb => invoke_pool_inv w P b a true hb) _ _ (pool_inv_of_eq s _ rfl rfl rfl h)
    · simp only [h2, if_false]
      exact pool_inv_of_eq s _ rfl rfl rfl h
  · simp only [h1, if_false]
    exact h

theorem propagate_outputs_pool_inv (P : Program) (s : State) (r : Nat) (h : pool_inv s) :
    pool_inv (propagate_outputs P s r) := by
  unfold propagate_outputs
  refine foldl_keeps pool_inv _ ?_ _ _ h
  intro b slot hb
  by_cases hf : slot.1 ∈ b.flags
  · simp only [hf, if_true]
    exact foldl_keeps pool_inv (insert_reactions P)
      (fun c t hc => pool_inv_of_eq c _ rfl rfl rfl hc) _ _ hb
  · simp only [hf, if_false]
    exact hb

theorem reaction_step_pool_inv (w : World) (P : Program) (s : State) (r : Nat)
    (h : pool_inv s) : pool_inv (reaction_step w P s r) := by
  unfold reaction_step
  exact propagate_outputs_pool_inv P _ r
    (invoke_pool_inv w P _ r false (check_deadline_pool_inv w P s r h))

theorem reaction_run_pool_inv (w : World) (P : Program) (n : Nat) (s : State)
    (h : pool_inv s) : pool_inv (reaction_run w P n s) := by
  induction n generalizing s with
  | zero => exact h
  | succ n ih =>
    cases hpop : pqueue_pop (get_rct_pri P) s.reaction_q with
    | none => simp only [reaction_run, hpop]; exact h
    | some rr =>
      obtain ⟨reaction, rest⟩ := rr
      rw [reaction_run_succ w P n s reaction rest hpop]
      exact ih _ (reaction_step_pool_inv w P _ reaction (pool_inv_of_eq s _ rfl rfl rfl h))

/-- The state after one iteration of the drain loop, written out. -/
theorem drain_body_eq (P : Program) (s : State) (event : event_t) (rest : List event_t)
    (hpop : pqueue_pop get_evt_pri s.event_q = some (event, rest)) :
    drain_body P s = .ok
      { (if (P.trigger event.trigger).period > 0 then
          (__schedule P (insert_reactions P { s with event_q := rest } event.trigger)
            event.trigger
            ((P.trigger event.trigger).period - (P.trigger event.trigger).offset)).1
        else insert_reactions P { s with event_q := rest } event.trigger) with
        recycle_q :=
          (if (P.trigger event.trigger).period > 0 then
            (__schedule P (insert_reactions P { s with event_q := rest } event.trigger)
              event.trigger
              ((P.trigger event.trigger).period - (P.trigger event.trigger).offset)).1
          else insert_reactions P { s with event_q := rest } event.trigger).recycle_q ++
            [{ event with time := 0 }] } := by
  unfold drain_body
  rw [hpop]
  simp only [pqueue_insert]

theorem drain_body_pool_inv (P : Program) (s s' : State) (h : pool_inv s)
    (hb : drain_body P s = .ok s') : pool_inv s' := by
  cases hpop : pqueue_pop get_evt_pri s.event_q with
  | none => simp [drain_body, hpop] at hb
  | some er =>
    obtain ⟨event, rest⟩ := er
    rw [drain_body_eq P s event rest hpop] at hb
    simp only [Except.ok.injEq] at hb
    rw [pool_inv_iff] at h
    have hq : s.event_q.Perm (event :: rest) := pqueue_pop_perm _ _ _ _ hpop
    have hA : numbered
        (event_addrs (insert_reactions P { s with event_q := rest } event.trigger) ++ [event.addr])
        (insert_reactions P { s with event_q := rest } event.trigger).allocated := by
      refine numbered_perm _ _ _ ?_ h
      simp only [event_addrs, insert_reactions, List.map_append, List.append_assoc]
      refine ((hq.map event_t.addr).append_right _).trans ?_
      simp only [List.map_cons, List.cons_append]
      rw [← List.append_assoc]
      exact (List.perm_append_singleton _ _).symm
    have hB : ∀ B : State, numbered (event_addrs B ++ [event.addr]) B.allocated →
        pool_inv { B with recycle_q := B.recycle_q ++ [{ event with time := 0 }] } := by
      intro B hB
      rw [pool_inv_iff]
      refine numbered_perm _ _ _ ?_ hB
      simp [event_addrs]
    rw [← hb]
    by_cases hper : (P.trigger event.trigger).period > 0
    · simp only [hper, if_true]
      exact hB _ (__schedule_numbered P _ event.trigger _ [event.addr] hA)
    · simp only [hper, if_false]
      exact hB _ hA

theorem drain_loop_pool_inv (P : Program) (fuel : Nat) (s s' : State) (h : pool_inv s)
    (hl : drain_loop P fuel s = .ok s') : pool_inv s' := by
  induction fuel generalizing s with
  | zero => simp [drain_loop] at hl
  | succ n ih =>
    simp only [drain_loop] at hl
    cases hb : drain_body P s with
    | error f => rw [hb] at hl; simp at hl
    | ok s1 =>
      rw [hb] at hl
      have h1 := drain_body_pool_inv P s s1 h hb
      by_cases hagain : drain_again s1 = true
      · simp only [hagain, if_true] at hl
        exact ih s1 h1 hl
      · simp only [hagain, Bool.false_eq_true, if_false] at hl
        cases hl
        exact h1

theorem wait_until_allocated (w : World) (s : State) (target : Int) :
    (wait_until w s target).1.allocated = s.allocated := by
  unfold wait_until
  simp only
  split_ifs <;> rfl

theorem next_pool_inv (w : World) (P : Program) (fuel : Nat) (s s' : State) (r : Int)
    (h : pool_inv s) (hn : next w P fuel s = .ok (s', r)) : pool_inv s' := by
  have hwait : pool_inv (wait_until w s (next_time s)).1 := by
    obtain ⟨f1, _, f3, _⟩ := wait_until_frame w s (next_time s)
    exact pool_inv_of_eq s _ f1 f3 (wait_until_allocated w s (next_time s)) h
  unfold next at hn
  simp only at hn
  split_ifs at hn with h1 h2
  · simp only [Except.ok.injEq, Prod.mk.injEq] at hn
    rw [← hn.1]; exact h
  · simp only [Except.ok.injEq, Prod.mk.injEq] at hn
    rw [← hn.1]; exact hwait
  · obtain ⟨s1, hdrain, _, hs'⟩ := next_tag_returns w P fuel _ s' r hn
    rw [hs']
    exact reaction_run_pool_inv w P fuel s1
      (drain_loop_pool_inv P fuel (__start_time_step (wait_until w s (next_time s)).1) s1
        (pool_inv_of_eq (wait_until w s (next_time s)).1 _ rfl rfl rfl hwait) hdrain)

/-! ## Accounting of the event records -/

/-- C17: the event-pool invariant (the number of events in the event queue plus the
number in the pool is the number of records allocated, and no record is in the queues
twice) is kept by `__schedule`, by `schedule`, and by every call of `next` that returns.
`__schedule` takes one record from the pool and allocates none when the pool is not
empty, and allocates exactly one when it is empty; and every iteration of the drain loop
of `next` ends by putting the event it popped into the pool, with time 0. -/
theorem event_pool_accounting (w : World) (P : Program) (s : State) (hinv : pool_inv s) :
    (∀ trigger delay, pool_inv (__schedule P s trigger delay).1 ∧
        pool_inv (schedule P s trigger delay).1) ∧
      (∀ fuel s' r, next w P fuel s = .ok (s', r) → pool_inv s') ∧
      (∀ trigger delay,
        (s.recycle_q ≠ [] →
          (__schedule P s trigger delay).1.allocated = s.allocated ∧
            (__schedule P s trigger delay).1.recycle_q.length + 1 = s.recycle_q.length) ∧
        (s.recycle_q = [] →
          (__schedule P s trigger delay).1.allocated = s.allocated + 1 ∧
            (__schedule P s trigger delay).1.recycle_q = [])) ∧
      (∀ event rest, pqueue_pop get_evt_pri s.event_q = some (event, rest) →
        ∃ s' pool, drain_body P s = .ok s' ∧
          s'.recycle_q = pool ++ [{ event with time := 0 }]) := by
  refine ⟨?_, ?_, ?_, ?_⟩
  · intro trigger delay
    exact ⟨__schedule_pool_inv P s trigger delay hinv, __schedule_pool_inv P s trigger _ hinv⟩
  · intro fuel s' r hn
    exact next_pool_inv w P fuel s s' r hinv hn
  · intro trigger delay
    rcases __schedule_cases P s trigger delay with ⟨hq, heq⟩ | ⟨e, rest, hpop, heq⟩
    · refine ⟨fun hne => absurd hq hne, fun _ => ?_⟩
      rw [heq]
      exact ⟨rfl, hq⟩
    · have hlen : s.recycle_q.length = rest.length + 1 := by
        rw [(pqueue_pop_perm _ _ _ _ hpop).length_eq]; rfl
      refine ⟨fun _ => ?_, fun hq => ?_⟩
      · rw [heq]
        exact ⟨rfl, hlen.symm⟩
      · rw [hq] at hpop
        simp [pqueue_pop] at hpop
  · intro event rest hpop
    exact ⟨_, _, drain_body_eq P s event rest hpop, rfl⟩

theorem event_pool_accounting_witness :
    pool_inv (schedule (one_trigger 5 0) fast_state 0 0).1 ∧ pool_inv fast_state_1 :=
  ⟨((event_pool_accounting (still_world 0 false) (one_trigger 5 0) fast_state
      (by decide)).1 0 0).2,
    (event_pool_accounting (still_world 0 false) (one_trigger 0 0) fast_state
      (by decide)).2.1 5 fast_state_1 1 rfl⟩

/-! ## Facts about the drain loop -/

/-- What one iteration of the drain loop does to the two event queues. -/
theorem drain_body_after (P : Program) (s s1 : State) (event : event_t) (rest : List event_t)
    (hpop : pqueue_pop get_evt_pri s.event_q = some (event, rest))
    (hb : drain_body P s = .ok s1) :
    s1.current_time = s.current_time ∧
      { event with time := 0 } ∈ s1.recycle_q ∧
      (∀ x ∈ s.recycle_q, x ∈ s1.recycle_q ∨
        ∃ e ∈ s1.event_q, e.addr = x.addr ∧ s.current_time < e.time) ∧
      (∀ e ∈ rest, e ∈ s1.event_q) ∧
      (∀ e ∈ s1.event_q, e ∈ rest ∨ s.current_time < e.time) := by
  rw [drain_body_eq P s event rest hpop] at hb
  simp only [Except.ok.injEq] at hb
  by_cases hper : (P.trigger event.trigger).period > 0
  · simp only [hper, if_true] at hb
    rcases __schedule_cases P (insert_reactions P { s with event_q := rest } event.trigger)
        event.trigger ((P.trigger event.trigger).period - (P.trigger event.trigger).offset)
      with ⟨hq, heq⟩ | ⟨y, pool, hpool, heq⟩
    · rw [heq] at hb
      rw [← hb]
      simp only [insert_reactions] at hq ⊢
      refine ⟨trivial, by simp, ?_, ?_, ?_⟩
      · intro x hx
        rw [hq] at hx
        simp at hx
      · intro e he
        simp [he]
      · intro e he
        simp only [List.mem_append, List.mem_singleton] at he
        rcases he with he | he
        · exact Or.inl he
        · right
          rw [he]
          simp only
          omega
    · rw [heq] at hb
      rw [← hb]
      simp only [insert_reactions] at hpool ⊢
      have hperm : s.recycle_q.Perm (y :: pool) := pqueue_pop_perm _ _ _ _ hpool
      refine ⟨trivial, by simp, ?_, ?_, ?_⟩
      · intro x hx
        rcases List.mem_cons.1 (hperm.subset hx) with hxy | hxp
        · right
          refine ⟨{ addr := y.addr
                    time := s.current_time + (P.trigger event.trigger).offset +
                      ((P.trigger event.trigger).period - (P.trigger event.trigger).offset)
                    trigger := event.trigger }, by simp, ?_, ?_⟩
          · rw [hxy]
          · simp only
            omega
        · left
          simp [hxp]
      · intro e he
        simp [he]
      · intro e he
        simp only [List.mem_append, List.mem_singleton] at he
        rcases he with he | he
        · exact Or.inl he
        · right
          rw [he]
          simp only
          omega
  · simp only [hper, if_false] at hb
    rw [← hb]
    simp only [insert_reactions]
    refine ⟨trivial, by simp, ?_, ?_, ?_⟩
    · intro x hx
      left
      simp [hx]
    · intro e he
      exact he
    · intro e he
      exact Or.inl he

theorem drain_body_evt_inv (P : Program) (s s1 : State) (hinv : evt_inv s)
    (hb : drain_body P s = .ok s1) : evt_inv s1 := by
  cases hpop : pqueue_pop get_evt_pri s.event_q with
  | none => simp [drain_body, hpop] at hb
  | some er =>
    obtain ⟨event, rest⟩ := er
    obtain ⟨hct, _, _, _, hq⟩ := drain_body_after P s s1 event rest hpop hb
    intro e he
    rw [hct]
    rcases hq e he with h | h
    · exact hinv e (pqueue_pop_rest_subset _ _ _ _ hpop e h)
    · exact le_of_lt h

/-- When the drain loop ends, the invariant of the event queue still holds and the loop
condition is false. -/
theorem drain_loop_end (P : Program) (fuel : Nat) (s s' : State) (hinv : evt_inv s)
    (hl : drain_loop P fuel s = .ok s') : evt_inv s' ∧ drain_again s' = false := by
  induction fuel generalizing s with
  | zero => simp [drain_loop] at hl
  | succ n ih =>
    simp only [drain_loop] at hl
    cases hb : drain_body P s with
    | error f => rw [hb] at hl; simp at hl
    | ok s1 =>
      rw [hb] at hl
      have h1 := drain_body_evt_inv P s s1 hinv hb
      by_cases hagain : drain_again s1 = true
      · simp only [hagain, if_true] at hl
        exact ih s1 h1 hl
      · simp only [hagain, Bool.false_eq_true, if_false] at hl
        cases hl
        exact ⟨h1, by simpa using hagain⟩

theorem no_event_at_current_time (s : State) (hinv : evt_inv s)
    (hagain : drain_again s = false) : ∀ e ∈ s.event_q, s.current_time < e.time := by
  intro e he
  unfold drain_again at hagain
  cases hpeek : pqueue_peek get_evt_pri s.event_q with
  | none =>
    rw [(pqueue_peek_eq_none _ _).1 hpeek] at he
    simp at he
  | some head =>
    rw [hpeek] at hagain
    simp only [decide_eq_false_iff_not] at hagain
    obtain ⟨rest, hpop⟩ := pqueue_peek_some _ _ _ hpeek
    have h1 : head.time ≤ e.time := pqueue_pop_least get_evt_pri _ _ _ hpop e he
    have h2 : s.current_time ≤ head.time := hinv head (pqueue_pop_mem _ _ _ _ hpop)
    omega

/-- While the drain loop goes on from a state whose head event is at `current_time`, a
record of the pool stays in the pool or is taken for a re-armed event, and an event
later than `current_time` stays in the event queue. -/
theorem drain_loop_persist (P : Program) (fuel : Nat) (s s' : State)
    (hagain : drain_again s = true) (hl : drain_loop P fuel s = .ok s') :
    (∀ x ∈ s.recycle_q, x ∈ s'.recycle_q ∨
        ∃ e ∈ s'.event_q, e.addr = x.addr ∧ s.current_time < e.time) ∧
      (∀ e ∈ s.event_q, s.current_time < e.time → e ∈ s'.event_q) := by
  induction fuel generalizing s with
  | zero => simp [drain_loop] at hl
  | succ n ih =>
    simp only [drain_loop] at hl
    cases hb : drain_body P s with
    | error f => rw [hb] at hl; simp at hl
    | ok s1 =>
      rw [hb] at hl
      have hhead : ∃ head rest, pqueue_pop get_evt_pri s.event_q = some (head, rest) ∧
          head.time = s.current_time := by
        unfold drain_again at hagain
        cases hpeek : pqueue_peek get_evt_pri s.event_q with
        | none => rw [hpeek] at hagain; simp at hagain
        | some head =>
          rw [hpeek] at hagain
          obtain ⟨rest, hpop⟩ := pqueue_peek_some _ _ _ hpeek
          exact ⟨head, rest, hpop, by simpa using hagain⟩
      obtain ⟨head, rest, hpop, hht⟩ := hhead
      obtain ⟨hct, _, hpool, hrest, _⟩ := drain_body_after P s s1 head rest hpop hb
      have hkeep : ∀ e ∈ s.event_q, s.current_time < e.time → e ∈ s1.event_q := by
        intro e he hlt
        rcases List.mem_cons.1 ((pqueue_pop_perm _ _ _ _ hpop).subset he) with h | h
        · rw [h, hht] at hlt
          exact absurd hlt (lt_irrefl _)
        · exact hrest e h
      by_cases hagain1 : drain_again s1 = true
      · simp only [hagain1, if_true] at hl
        obtain ⟨i1, i2⟩ := ih s1 hagain1 hl
        rw [hct] at i1 i2
        refine ⟨?_, ?_⟩
        · intro x hx
          rcases hpool x hx with h | ⟨e, he, hea, het⟩
          · exact i1 x h
          · exact Or.inr ⟨e, i2 e he het, hea, het⟩
        · intro e he hlt
          exact i2 e (hkeep e he hlt) hlt
      · simp only [hagain1, Bool.false_eq_true, if_false] at hl
        cases hl
        exact ⟨hpool, hkeep⟩

/-- Every event popped by the drain loop is, when the loop ends, in the pool with time
0, or its record has been taken from the pool again for a re-armed event later than
`current_time`. -/
theorem drained_recycled (P : Program) (fuel : Nat) (s s' : State)
    (hl : drain_loop P fuel s = .ok s') :
    ∀ e ∈ drained P fuel s, { e with time := 0 } ∈ s'.recycle_q ∨
      ∃ e' ∈ s'.event_q, e'.addr = e.addr ∧ s'.current_time < e'.time := by
  induction fuel generalizing s with
  | zero => simp [drained]
  | succ n ih =>
    simp only [drain_loop] at hl
    cases hb : drain_body P s with
    | error f => rw [hb] at hl; simp at hl
    | ok s1 =>
      rw [hb] at hl
      cases hpop : pqueue_pop get_evt_pri s.event_q with
      | none => simp [drain_body, hpop] at hb
      | some er =>
        obtain ⟨event, rest⟩ := er
        obtain ⟨hct, hin, _⟩ := drain_body_after P s s1 event rest hpop hb
        simp only [drained, hpop, hb]
        by_cases hagain1 : drain_again s1 = true
        · simp only [hagain1, if_true] at hl ⊢
          obtain ⟨p1, _⟩ := drain_loop_persist P n s1 s' hagain1 hl
          have hct' : s'.current_time = s1.current_time := (drain_loop_frame P n s1 s' hl).1
          intro e he
          rcases List.mem_cons.1 he with h | h
          · rw [h, hct']
            exact p1 _ hin
          · exact ih s1 hl e h
        · simp only [hagain1, Bool.false_eq_true, if_false] at hl ⊢
          cases hl
          intro e he
          rw [List.mem_singleton] at he
          rw [he]
          exact Or.inl hin

theorem next_time_le (s : State) : ∀ e ∈ s.event_q, next_time s ≤ e.time := by
  intro e he
  unfold next_time
  cases hpeek : pqueue_peek get_evt_pri s.event_q with
  | none =>
    rw [(pqueue_peek_eq_none _ _).1 hpeek] at he
    simp at he
  | some head =>
    obtain ⟨rest, hpop⟩ := pqueue_peek_some _ _ _ hpeek
    exact pqueue_pop_least get_evt_pri _ _ _ hpop e he

theorem wait_until_evt_inv (w : World) (s : State) (target : Int) (hinv : evt_inv s)
    (htarget : ∀ e ∈ s.event_q, target ≤ e.time) : evt_inv (wait_until w s target).1 := by
  obtain ⟨hq, _, _, _, _, hct⟩ := wait_until_frame w s target
  have hle := clamped_target_le s target
  intro x hx
  rw [hq] at hx
  have h1 := htarget x hx
  have h2 := hinv x hx
  rcases hct with h | h | h <;> omega

/-! ## After the drain loop -/

/-- C20, refuted as stated: let `next` be entered at `current_time = 100` with two events
at time 100 in the queue, the first for a trigger without period and the second for a
trigger of period 50, and an empty pool.  The drain loop pops both.  The first is put
into the pool with time 0, but the re-arm made for the second takes that record out of
the pool again: when the loop ends the record of the first drained event (address 0) is
in the event queue, with time 150, and only the second one is in the pool. -/
theorem drained_event_reused_by_rearm :
    evt_inv two_events_state ∧
      pqueue_peek get_evt_pri two_events_state.event_q
        = some { addr := 0, time := 100, trigger := 0 } ∧
      (wait_until (still_world 0 false) two_events_state
        (next_time two_events_state)).1.current_time = 100 ∧
      drained mixed_periods 5 (__start_time_step (wait_until (still_world 0 false)
          two_events_state (next_time two_events_state)).1)
        = [{ addr := 0, time := 100, trigger := 0 }, { addr := 1, time := 100, trigger := 1 }] ∧
      (drain_loop mixed_periods 5 (__start_time_step (wait_until (still_world 0 false)
          two_events_state (next_time two_events_state)).1)).toOption.map
          (fun s => (s.event_q, s.recycle_q))
        = some ([{ addr := 0, time := 150, trigger := 1 }],
                [{ addr := 1, time := 0, trigger := 1 }]) := by
  decide

/-- C20, amended: let `next` be entered in a state in which no queued event lies before
`current_time`, and let its drain loop end in `s'`.  Then every event in the event
queue of `s'` is later than `current_time` (so none has `time = current_time`, and the
re-armed events lie in the future), and every event popped by the loop is in the pool
with time 0, or its record has been taken out of the pool again by the re-arm of a
later iteration and is in the event queue with a time later than `current_time`. -/
theorem drain_clears_current_tag (w : World) (P : Program) (fuel : Nat) (s0 s' : State)
    (hinv : evt_inv s0)
    (hdrain : drain_loop P fuel
      (__start_time_step (wait_until w s0 (next_time s0)).1) = .ok s') :
    (∀ e ∈ s'.event_q, e.time ≠ s'.current_time ∧ s'.current_time < e.time) ∧
      (∀ e ∈ drained P fuel (__start_time_step (wait_until w s0 (next_time s0)).1),
        { e with time := 0 } ∈ s'.recycle_q ∨
          ∃ e' ∈ s'.event_q, e'.addr = e.addr ∧ s'.current_time < e'.time) := by
  have hw : evt_inv (wait_until w s0 (next_time s0)).1 :=
    wait_until_evt_inv w s0 (next_time s0) hinv (next_time_le s0)
  have hstart : evt_inv (__start_time_step (wait_until w s0 (next_time s0)).1) := hw
  obtain ⟨hinv', hagain⟩ := drain_loop_end P fuel _ s' hstart hdrain
  refine ⟨?_, drained_recycled P fuel _ s' hdrain⟩
  intro e he
  have hlt := no_event_at_current_time s' hinv' hagain e he
  exact ⟨by omega, hlt⟩

theorem drain_clears_current_tag_witness :
    (∀ e ∈ fast_state_drained.event_q,
        e.time ≠ fast_state_drained.current_time ∧ fast_state_drained.current_time < e.time) ∧
      (∀ e ∈ drained (one_trigger 0 0) 5
          (__start_time_step (wait_until (still_world 0 false) fast_state
            (next_time fast_state)).1),
        { e with time := 0 } ∈ fast_state_drained.recycle_q ∨
          ∃ e' ∈ fast_state_drained.event_q,
            e'.addr = e.addr ∧ fast_state_drained.current_time < e'.time) :=
  drain_clears_current_tag (still_world 0 false) (one_trigger 0 0) 5 fast_state
    fast_state_drained (by decide) rfl

/-! ## Facts about `process_args` -/

theorem strcmp_eq_zero (a b : String) : strcmp a b = 0 ↔ a = b := by
  unfold strcmp
  split_ifs with h <;> simp [h]

theorem strncmp_eq_zero (a b : String) (n : Nat) :
    strncmp a b n = 0 ↔ a.toList.take n = b.toList.take n := by
  unfold strncmp
  split_ifs with h
  · exact ⟨fun _ => h, fun _ => rfl⟩
  · exact ⟨fun h1 => absurd h1 (by decide), fun h1 => absurd h1 h⟩

theorem convert_units_known (units : String) (duration : Int) :
    (∃ d, convert_units units duration = some d) ↔ unit_known units := by
  unfold convert_units unit_known
  simp only [strncmp_eq_zero]
  have e1 : "sec".toList.take 3 = "sec".toList := by decide
  have e2 : "msec".toList.take 4 = "msec".toList := by decide
  have e3 : "usec".toList.take 4 = "usec".toList := by decide
  have e4 : "nsec".toList.take 4 = "nsec".toList := by decide
  have e5 : "minute".toList.take 6 = "minute".toList := by decide
  have e6 : "hour".toList.take 4 = "hour".toList := by decide
  have e7 : "day".toList.take 3 = "day".toList := by decide
  have e8 : "week".toList.take 4 = "week".toList := by decide
  rw [e1, e2, e3, e4, e5, e6, e7, e8]
  split_ifs <;> simp_all

theorem time_rejected_iff (time_spec : String) :
    (atoll time_spec = 0 ∧ strncmp time_spec "0" 1 ≠ 0) ↔ time_rejected time_spec := by
  unfold time_rejected
  rw [Ne, strncmp_eq_zero]
  have e : "0".toList.take 1 = ['0'] := by decide
  rw [e]

/-- One iteration of the loop of `process_args` at a `-stop` that is followed by two
more arguments. -/
theorem process_stop (argc : Nat) (argv : List String) (fuel i : Nat) (s : State)
    (time_spec units : String) (hi : i + 3 ≤ argc) (h0 : argv[i]? = some "-stop")
    (h1 : argv[i + 1]? = some time_spec) (h2 : argv[i + 2]? = some units) :
    process_args_loop argc argv (fuel + 1) i s =
      if time_rejected time_spec then .ok ({ s with duration := atoll time_spec }, 0)
      else
        match convert_units units (atoll time_spec) with
        | some duration =>
          process_args_loop argc argv fuel (i + 3) { s with duration := duration }
        | none => .ok ({ s with duration := atoll time_spec }, 0) := by
  have hlt : i < argc := by omega
  have hge : ¬ argc < i + 3 := by omega
  have hfast : ¬ strcmp "-stop" "-fast" = 0 := by decide
  have hstop : strcmp "-stop" "-stop" = 0 := by decide
  rw [process_args_loop]
  simp only [hlt, if_true, h0, hfast, if_false, hstop, hge, h1, h2]
  by_cases hr : time_rejected time_spec
  · rw [if_pos hr, if_pos ((time_rejected_iff time_spec).2 hr)]
  · rw [if_neg hr, if_neg (fun h => hr ((time_rejected_iff time_spec).1 h))]

theorem process_args_loop_ok (argc : Nat) (argv : List String) (hlen : argv.length = argc)
    (fuel : Nat) : ∀ (i : Nat) (s : State), argc ≤ i + fuel →
      ∃ r, process_args_loop argc argv fuel i s = .ok r := by
  induction fuel with
  | zero =>
    intro i s h
    have : ¬ i < argc := by omega
    exact ⟨(s, 1), by simp [process_args_loop, this]⟩
  | succ n ih =>
    intro i s h
    by_cases hlt : i < argc
    · have hget : argv[i]? = some (argv[i]) := List.getElem?_eq_getElem (by omega)
      rw [process_args_loop]
      simp only [hlt, if_true, hget]
      by_cases hfast : strcmp argv[i] "-fast" = 0
      · simp only [hfast, if_true]
        exact ih (i + 1) _ (by omega)
      · simp only [hfast, if_false]
        by_cases hstop : strcmp argv[i] "-stop" = 0
        · simp only [hstop, if_true]
          by_cases hargs : argc < i + 3
          · simp only [hargs, if_true]
            exact ⟨_, rfl⟩
          · simp only [hargs, if_false]
            have hget1 : argv[i + 1]? = some (argv[i + 1]) :=
              List.getElem?_eq_getElem (by omega)
            have hget2 : argv[i + 2]? = some (argv[i + 2]) :=
              List.getElem?_eq_getElem (by omega)
            simp only [hget1, hget2]
            split_ifs with hrej
            · exact ⟨_, rfl⟩
            · cases hconv : convert_units argv[i + 2] (atoll argv[i + 1]) with
              | none => exact ⟨_, rfl⟩
              | some d => exact ih (i + 3) _ (by omega)
        · simp only [hstop, if_false]
          by_cases hwait : strcmp argv[i] "-wait" = 0
          · simp only [hwait, if_true]
            exact ih (i + 1) _ (by omega)
          · simp only [hwait, if_false]
            exact ⟨_, rfl⟩
    · exact ⟨(s, 1), by rw [process_args_loop]; simp [hlt]⟩

/-! ## The arguments of `-stop` -/

/-- C15, refuted as stated: `process_args` returns 1 for `-stop -5 sec` (the duration
becomes -5000000000), for `-stop 12abc msec` (the duration becomes 12000000) and for
`-stop 0abc sec` (the duration becomes 0), although none of `-5`, `12abc` and `0abc` is a
nonnegative decimal integer literal. -/
theorem process_args_accepts_malformed_durations :
    (process_args 4 ["prog", "-stop", "-5", "sec"] start_state).toOption.map
        (fun r => (r.1.duration, r.2)) = some (-5000000000, 1) ∧
      (process_args 4 ["prog", "-stop", "12abc", "msec"] start_state).toOption.map
        (fun r => (r.1.duration, r.2)) = some (12000000, 1) ∧
      (process_args 4 ["prog", "-stop", "0abc", "sec"] start_state).toOption.map
        (fun r => (r.1.duration, r.2)) = some (0, 1) := by
  decide

/-- C15, amended: at a `-stop D U` in the argument list, `process_args` returns 0 with
the duration set to 0 whenever `atoll` gives 0 for `D` and `D` does not begin with the
character `0`; for every other `D` the duration `atoll(D)` is accepted and the outcome is
decided by the units.  The literal `0` is accepted, and so is every `D` for which `atoll`
gives a nonzero value and every `D` that begins with `0`. -/
theorem stop_duration_checked (argc : Nat) (argv : List String) (fuel i : Nat) (s : State)
    (time_spec units : String) (hi : i + 3 ≤ argc) (h0 : argv[i]? = some "-stop")
    (h1 : argv[i + 1]? = some time_spec) (h2 : argv[i + 2]? = some units) :
    (time_rejected time_spec →
        process_args_loop argc argv (fuel + 1) i s = .ok ({ s with duration := 0 }, 0)) ∧
      (¬ time_rejected time_spec →
        process_args_loop argc argv (fuel + 1) i s =
          match convert_units units (atoll time_spec) with
          | some duration =>
            process_args_loop argc argv fuel (i + 3) { s with duration := duration }
          | none => .ok ({ s with duration := atoll time_spec }, 0)) ∧
      ¬ time_rejected "0" ∧
      (atoll time_spec ≠ 0 → ¬ time_rejected time_spec) ∧
      (time_spec.toList.take 1 = ['0'] → ¬ time_rejected time_spec) := by
  have hstep := process_stop argc argv fuel i s time_spec units hi h0 h1 h2
  refine ⟨?_, ?_, by decide, ?_, ?_⟩
  · intro hr
    rw [hstep, if_pos hr, hr.1]
  · intro hr
    rw [hstep, if_neg hr]
  · intro hne hr
    exact hne hr.1
  · intro hzero hr
    exact hr.2 hzero

theorem stop_duration_checked_witness :
    process_args_loop 4 ["prog", "-stop", "abc", "sec"] 4 1 start_state
      = .ok ({ start_state with duration := 0 }, 0) :=
  (stop_duration_checked 4 ["prog", "-stop", "abc", "sec"] 3 1 start_state "abc" "sec"
    (by decide) (by decide) (by decide) (by decide)).1 (by decide)

/-- C16: at a `-stop D U` in the argument list whose `D` is accepted, `process_args`
goes on with the next argument when `U` begins with one of `sec`, `msec`, `usec`, `nsec`,
`minute`, `hour`, `day`, `week`, and returns 0 for every other `U`; so for the argument
list `-stop D U` alone it returns 1 exactly when `U` begins with one of these.  It returns
0 for an argument that is none of `-fast`, `-stop`, `-wait`, and for a `-stop` that is
followed by fewer than two arguments.  On every argument list it returns a result: no
element outside `argv[0 .. argc-1]` is read. -/
theorem stop_units_checked (argc : Nat) (argv : List String) (fuel i : Nat) (s : State) :
    (∀ time_spec units, i + 3 ≤ argc → argv[i]? = some "-stop" →
        argv[i + 1]? = some time_spec → argv[i + 2]? = some units →
        ¬ time_rejected time_spec →
        (unit_known units → ∃ duration,
          process_args_loop argc argv (fuel + 1) i s =
            process_args_loop argc argv fuel (i + 3) { s with duration := duration }) ∧
        (¬ unit_known units →
          process_args_loop argc argv (fuel + 1) i s =
            .ok ({ s with duration := atoll time_spec }, 0))) ∧
      (∀ prog time_spec units, ¬ time_rejected time_spec →
        (process_args 4 [prog, "-stop", time_spec, units] s).toOption.map Prod.snd
          = some (if unit_known units then 1 else 0)) ∧
      (∀ arg, i < argc → argv[i]? = some arg → arg ≠ "-fast" → arg ≠ "-stop" →
        arg ≠ "-wait" → process_args_loop argc argv (fuel + 1) i s = .ok (s, 0)) ∧
      (i < argc → argc < i + 3 → argv[i]? = some "-stop" →
        process_args_loop argc argv (fuel + 1) i s = .ok (s, 0)) ∧
      (argv.length = argc → ∃ r, process_args argc argv s = .ok r) := by
  have hunits : ∀ (n k : Nat) (av : List String) (t : State) (time_spec units : String),
      k + 3 ≤ n → av[k]? = some "-stop" → av[k + 1]? = some time_spec →
      av[k + 2]? = some units → ¬ time_rejected time_spec →
      (unit_known units → ∃ duration,
          process_args_loop n av (fuel + 1) k t =
            process_args_loop n av fuel (k + 3) { t with duration := duration }) ∧
        (¬ unit_known units →
          process_args_loop n av (fuel + 1) k t =
            .ok ({ t with duration := atoll time_spec }, 0)) := by
    intro n k av t time_spec units hk h0 h1 h2 hr
    have hstep := process_stop n av fuel k t time_spec units hk h0 h1 h2
    rw [if_neg hr] at hstep
    constructor
    · intro hknown
      obtain ⟨d, hd⟩ := (convert_units_known units (atoll time_spec)).2 hknown
      rw [hd] at hstep
      exact ⟨d, hstep⟩
    · intro hunknown
      cases hc : convert_units units (atoll time_spec) with
      | none => rw [hc] at hstep; exact hstep
      | some d => exact absurd ((convert_units_known units (atoll time_spec)).1 ⟨d, hc⟩) hunknown
  refine ⟨fun time_spec units => hunits argc i argv s time_spec units, ?_, ?_, ?_, ?_⟩
  · intro prog time_spec units hr
    have hstep := process_stop 4 [prog, "-stop", time_spec, units] 3 1 s time_spec units
      (by decide) rfl rfl rfl
    rw [if_neg hr] at hstep
    unfold process_args
    rw [hstep]
    by_cases hknown : unit_known units
    · obtain ⟨d, hd⟩ := (convert_units_known units (atoll time_spec)).2 hknown
      rw [hd, if_pos hknown]
      simp [process_args_loop, Except.toOption]
    · rw [if_neg hknown]
      cases hc : convert_units units (atoll time_spec) with
      | none => simp [Except.toOption]
      | some d => exact absurd ((convert_units_known units (atoll time_spec)).1 ⟨d, hc⟩) hknown
  · intro arg hlt hget hfast hstop hwait
    have h1 : ¬ strcmp arg "-fast" = 0 := fun h => hfast ((strcmp_eq_zero _ _).1 h)
    have h2 : ¬ strcmp arg "-stop" = 0 := fun h => hstop ((strcmp_eq_zero _ _).1 h)
    have h3 : ¬ strcmp arg "-wait" = 0 := fun h => hwait ((strcmp_eq_zero _ _).1 h)
    rw [process_args_loop]
    simp only [hlt, if_true, hget, h1, h2, h3, if_false]
  · intro hlt hfew hget
    have hfast : ¬ strcmp "-stop" "-fast" = 0 := by decide
    have hstop : strcmp "-stop" "-stop" = 0 := by decide
    rw [process_args_loop]
    simp only [hlt, if_true, hget, hfast, if_false, hstop, hfew]
  · intro hlen
    exact process_args_loop_ok argc argv hlen argc 1 s (by omega)

theorem stop_units_checked_witness :
    (process_args 4 ["prog", "-stop", "10", "seconds"] start_state).toOption.map Prod.snd
        = some (if unit_known "seconds" then 1 else 0) ∧
      unit_known "seconds" ∧
      (process_args 4 ["prog", "-stop", "10", "se"] start_state).toOption.map Prod.snd
        = some (if unit_known "se" then 1 else 0) ∧
      ¬ unit_known "se" :=
  ⟨(stop_units_checked 4 ["prog", "-stop", "10", "seconds"] 3 1 start_state).2.1
      "prog" "10" "seconds" (by decide),
    by decide,
    (stop_units_checked 4 ["prog", "-stop", "10", "se"] 3 1 start_state).2.1
      "prog" "10" "se" (by decide),
    by decide⟩

/-! ## The first pop of the drain loop -/

theorem drain_loop_null_event (P : Program) (fuel : Nat) (s : State)
    (h : drain_loop P fuel s = .error .null_event) : s.event_q = [] := by
  induction fuel generalizing s with
  | zero => simp [drain_loop] at h
  | succ n ih =>
    simp only [drain_loop] at h
    cases hb : drain_body P s with
    | error f =>
      cases hpop : pqueue_pop get_evt_pri s.event_q with
      | none => exact (pqueue_pop_eq_none _ _).1 hpop
      | some er =>
        obtain ⟨s', hs', _⟩ := drain_body_spec P s er.1 er.2 hpop
        rw [hs'] at hb
        simp at hb
    | ok s1 =>
      rw [hb] at h
      simp only at h
      by_cases hagain : drain_again s1 = true
      · rw [if_pos hagain] at h
        have hq := ih s1 h
        unfold drain_again at hagain
        rw [(pqueue_peek_eq_none _ _).2 hq] at hagain
        simp at hagain
      · rw [if_neg hagain] at h
        simp at h

/-- The only calls of `next` that end in the dereference of a null event are those made
with an empty event queue and `-wait` set in which `wait_until` returns 0; with fuel for
at least one iteration every such call ends so. -/
theorem next_null_event_iff (w : World) (P : Program) (fuel : Nat) (s : State) :
    next w P (fuel + 1) s = .error .null_event ↔
      s.event_q = [] ∧ s.wait_specified = true ∧ (wait_until w s LLONG_MAX).2 = 0 := by
  constructor
  · intro h
    unfold next at h
    simp only at h
    split_ifs at h with h1 h2
    have hq : s.event_q = [] := by
      unfold next_tag at h
      cases hd : drain_loop P (fuel + 1) (__start_time_step (wait_until w s (next_time s)).1) with
      | error f =>
        rw [hd] at h
        simp only [Except.error.injEq] at h
        rw [h] at hd
        have := drain_loop_null_event P _ _ hd
        rw [← (wait_until_frame w s (next_time s)).1]
        exact this
      | ok s1 =>
        rw [hd] at h
        simp only at h
        rw [reaction_loop_eq] at h
        split_ifs at h
        simp at h
    have hpeek : pqueue_peek get_evt_pri s.event_q = none := (pqueue_peek_eq_none _ _).2 hq
    have hnt : next_time s = LLONG_MAX := by simp [next_time, hpeek]
    have hwait : s.wait_specified = true := by
      simp only [hpeek, Option.isNone_none, Bool.true_and, Bool.not_eq_true',
        Bool.not_eq_false] at h1
      simpa using h1
    refine ⟨hq, hwait, ?_⟩
    have hpeek' : pqueue_peek get_evt_pri (wait_until w s (next_time s)).1.event_q = none := by
      rw [(wait_until_frame w s (next_time s)).1]; exact hpeek
    have hge : ¬ (wait_until w s (next_time s)).2 < 0 := by
      intro hlt
      apply h2
      simp [next_gives_up, hpeek, hpeek', hlt]
    rw [hnt] at hge
    rcases (wait_until_returns w s LLONG_MAX).1 with h0 | hneg
    · exact h0
    · rw [hneg] at hge
      exact absurd (by decide) hge
  · rintro ⟨hq, hwait, hzero⟩
    have hpeek : pqueue_peek get_evt_pri s.event_q = none := (pqueue_peek_eq_none _ _).2 hq
    have hnt : next_time s = LLONG_MAX := by simp [next_time, hpeek]
    have hq' : (wait_until w s LLONG_MAX).1.event_q = [] := by
      rw [(wait_until_frame w s LLONG_MAX).1]; exact hq
    unfold next
    simp only [hpeek, hwait, hnt, hzero]
    simp [next_tag, drain_loop, drain_body, __start_time_step, hq', pqueue_pop]

/-- C22, evaluated on the code: let `-fast` and `-wait` be given and no `-stop`, so that
`initialize` leaves `stop_time = 0`, and let there be no events.  `next` finds the event
queue empty and asks `wait_until` for `LLONG_MAX`; no stop time is set and the mode is
fast, so `wait_until` sets `current_time = LLONG_MAX` and returns 0.  `next` then calls
`__start_time_step` and pops from the empty event queue: the run ends in the dereference
of the null event. -/
theorem next_pops_empty_queue :
    (initialize_runtime epoch_world (fast_wait_state (-1))).stop_time = 0 ∧
      (initialize_runtime epoch_world (fast_wait_state (-1))).event_q = [] ∧
      (initialize_runtime epoch_world (fast_wait_state (-1))).wait_specified = true ∧
      wait_until epoch_world (initialize_runtime epoch_world (fast_wait_state (-1))) LLONG_MAX
        = ({ initialize_runtime epoch_world (fast_wait_state (-1)) with
              current_time := LLONG_MAX }, 0) ∧
      next epoch_world (one_trigger 0 0) 5 (initialize_runtime epoch_world (fast_wait_state (-1)))
        = .error .null_event := by
  refine ⟨by decide, by decide, by decide, by decide, rfl⟩

/-! ## Facts about the insertions into the reaction queue -/

theorem trigger_array_queue (P : Program) (triggerArray : List Nat) (s : State) :
    (triggerArray.foldl (insert_reactions P) s).reaction_q =
      s.reaction_q ++ triggerArray.flatMap (fun trigger => (P.trigger trigger).reactions) := by
  induction triggerArray generalizing s with
  | nil => simp
  | cons t ts ih =>
    simp only [List.foldl_cons, List.flatMap_cons]
    rw [ih (insert_reactions P s t), (insert_reactions_frame P s t).2.2.2.2, List.append_assoc]

theorem slots_queue (P : Program) (slots : List (Nat × List Nat)) (s : State) :
    (slots.foldl (fun s slot =>
        if slot.1 ∈ s.flags then slot.2.foldl (insert_reactions P) s else s) s).reaction_q =
      s.reaction_q ++
        (slots.filter (fun slot => decide (slot.1 ∈ s.flags))).flatMap
          (fun slot => slot.2.flatMap (fun trigger => (P.trigger trigger).reactions)) := by
  induction slots generalizing s with
  | nil => simp
  | cons sl sls ih =>
    simp only [List.foldl_cons]
    by_cases hf : sl.1 ∈ s.flags
    · simp only [hf, if_true]
      rw [ih (sl.2.foldl (insert_reactions P) s), (trigger_array_frame P sl.2 s).2.2.2.1,
        trigger_array_queue P sl.2 s]
      simp [List.filter_cons, hf]
    · simp only [hf, if_false]
      rw [ih s]
      simp [List.filter_cons, hf]

theorem propagate_outputs_queue (P : Program) (s : State) (reaction : Nat) :
    (propagate_outputs P s reaction).reaction_q =
      s.reaction_q ++ triggered P s.flags reaction := by
  unfold propagate_outputs triggered
  exact slots_queue P _ s

theorem reaction_step_queue (w : World) (P : Program) (s : State) (reaction : Nat) :
    (reaction_step w P s reaction).reaction_q =
      s.reaction_q ++
        triggered P (invoke w P (check_deadline w P s reaction) reaction false).flags
          reaction := by
  unfold reaction_step
  rw [propagate_outputs_queue,
    (invoke_frame w P (check_deadline w P s reaction) reaction false).2.2.1,
    (check_deadline_frame w P s reaction).2.2.1]

theorem invoked_append (a b : List Call) : invoked (a ++ b) = invoked a ++ invoked b := by
  unfold invoked
  rw [popped_calls_append, List.map_append]

/-- After any number of iterations of the reaction loop, the reactions called so far
together with those still in the queue are those that were in the queue at the start
together with those inserted by the output loops. -/
theorem reaction_run_balance (w : World) (P : Program) (n : Nat) (s : State) :
    ∃ calls, (reaction_run w P n s).log = s.log ++ calls ∧
      (invoked calls ++ (reaction_run w P n s).reaction_q).Perm
        (s.reaction_q ++ propagated w P n s) := by
  induction n generalizing s with
  | zero => exact ⟨[], by simp [reaction_run], by simp [reaction_run, propagated, invoked, popped_calls]⟩
  | succ n ih =>
    cases hpop : pqueue_pop (get_rct_pri P) s.reaction_q with
    | none =>
      simp only [reaction_run, propagated, hpop]
      exact ⟨[], by simp, by simp [invoked, popped_calls]⟩
    | some rr =>
      obtain ⟨reaction, rest⟩ := rr
      rw [reaction_run_succ w P n s reaction rest hpop]
      simp only [propagated, hpop]
      obtain ⟨calls2, h1, h2⟩ := ih (reaction_step w P { s with reaction_q := rest } reaction)
      obtain ⟨_, _, ⟨vs, g3, g4⟩, _⟩ :=
        reaction_step_frame w P { s with reaction_q := rest } reaction
      have hq := reaction_step_queue w P { s with reaction_q := rest } reaction
      have hperm : s.reaction_q.Perm (reaction :: rest) := pqueue_pop_perm _ _ _ _ hpop
      refine ⟨vs ++ [{ reaction := reaction, time := s.current_time, violation := false }]
        ++ calls2, ?_, ?_⟩
      · rw [h1, g3]; simp
      · have hinv : invoked
            (vs ++ [{ reaction := reaction, time := s.current_time, violation := false }]
              ++ calls2) = reaction :: invoked calls2 := by
          rw [invoked_append, invoked_append]
          unfold invoked
          rw [popped_calls_violations vs (fun c hc => (g4 c hc).1)]
          simp [popped_calls]
        rw [hinv]
        have h3 := List.Perm.cons reaction h2
        rw [hq] at h3
        simp only [List.append_assoc] at h3
        have h5 := List.Perm.append_right
          (triggered P
              (invoke w P (check_deadline w P { s with reaction_q := rest } reaction)
                reaction false).flags reaction ++
            propagated w P n (reaction_step w P { s with reaction_q := rest } reaction))
          hperm.symm
        exact h3.trans h5

theorem drain_body_reaction_q (P : Program) (s s1 : State) (event : event_t)
    (rest : List event_t) (hpop : pqueue_pop get_evt_pri s.event_q = some (event, rest))
    (hb : drain_body P s = .ok s1) :
    s1.reaction_q = s.reaction_q ++ (P.trigger event.trigger).reactions := by
  rw [drain_body_eq P s event rest hpop] at hb
  simp only [Except.ok.injEq] at hb
  rw [← hb]
  by_cases hper : (P.trigger event.trigger).period > 0
  · simp only [hper, if_true]
    rw [(__schedule_spec P _ _ _).2.2.2.1]
    exact (insert_reactions_frame P _ event.trigger).2.2.2.2
  · simp only [hper, if_false]
    exact (insert_reactions_frame P _ event.trigger).2.2.2.2

theorem drain_loop_reaction_q (P : Program) (fuel : Nat) (s s' : State)
    (hl : drain_loop P fuel s = .ok s') :
    s'.reaction_q = s.reaction_q ++ drain_insertions P (drained P fuel s) := by
  induction fuel generalizing s with
  | zero => simp [drain_loop] at hl
  | succ n ih =>
    simp only [drain_loop] at hl
    cases hb : drain_body P s with
    | error f => rw [hb] at hl; simp at hl
    | ok s1 =>
      rw [hb] at hl
      cases hpop : pqueue_pop get_evt_pri s.event_q with
      | none => simp [drain_body, hpop] at hb
      | some er =>
        obtain ⟨event, rest⟩ := er
        have hq := drain_body_reaction_q P s s1 event rest hpop hb
        simp only [drained, hpop, hb]
        by_cases hagain : drain_again s1 = true
        · simp only [hagain, if_true] at hl ⊢
          rw [ih s1 hl, hq]
          simp [drain_insertions]
        · simp only [hagain, Bool.false_eq_true, if_false] at hl ⊢
          cases hl
          rw [hq]
          simp [drain_insertions]

/-! ## Reactions invoked in one call of `next` -/

/-- C21: let `next` be called with an empty reaction queue and return.  Then the reaction
queue is empty again, whatever the reaction bodies did (a call of `stop` included), and
every reaction called in between was called at the `current_time` with which `next`
returns.  Either `next` returned before its drain loop, having called no reaction and
returning 0; or the drain loop ended, `current_time` stayed as `wait_until` left it, and
the reactions called because they were popped from the reaction queue are, counted with
multiplicity, exactly the insertions made: one for each reaction of the trigger of each
drained event, and one for each reaction of each trigger under each produced output
slot of each executed reaction. -/
theorem reactions_invoked_as_inserted (w : World) (P : Program) (fuel : Nat)
    (s0 s' : State) (r : Int) (hempty : s0.reaction_q = [])
    (hnext : next w P fuel s0 = .ok (s', r)) :
    s'.reaction_q = [] ∧
      ∃ calls, s'.log = s0.log ++ calls ∧ (∀ c ∈ calls, c.time = s'.current_time) ∧
        ((calls = [] ∧ r = 0) ∨
          ∃ s1, drain_loop P fuel (__start_time_step (wait_until w s0 (next_time s0)).1)
              = .ok s1 ∧
            s'.current_time = (wait_until w s0 (next_time s0)).1.current_time ∧
            (invoked calls).Perm
              (drain_insertions P
                  (drained P fuel (__start_time_step (wait_until w s0 (next_time s0)).1)) ++
                propagated w P fuel s1)) := by
  obtain ⟨_, wq, _, _, wlog, _⟩ := wait_until_frame w s0 (next_time s0)
  unfold next at hnext
  simp only at hnext
  split_ifs at hnext with h1 h2
  · simp only [Except.ok.injEq, Prod.mk.injEq] at hnext
    obtain ⟨hs, hr⟩ := hnext
    rw [← hs]
    exact ⟨hempty, [], by simp, by simp, Or.inl ⟨rfl, hr.symm⟩⟩
  · simp only [Except.ok.injEq, Prod.mk.injEq] at hnext
    obtain ⟨hs, hr⟩ := hnext
    rw [← hs]
    exact ⟨wq.trans hempty, [], by simp [wlog], by simp, Or.inl ⟨rfl, hr.symm⟩⟩
  · obtain ⟨s1, hdrain, hq, hs'⟩ := next_tag_returns w P fuel _ s' r hnext
    obtain ⟨d1, _, d3⟩ := drain_loop_frame P fuel _ s1 hdrain
    have dq := drain_loop_reaction_q P fuel _ s1 hdrain
    obtain ⟨r1, _, calls', r3, r4⟩ := reaction_run_times w P fuel s1
    obtain ⟨calls, b1, b2⟩ := reaction_run_balance w P fuel s1
    have hsame : calls' = calls := List.append_cancel_left (r3.symm.trans b1)
    have hstartq : (__start_time_step (wait_until w s0 (next_time s0)).1).reaction_q = [] :=
      wq.trans hempty
    have hlog : s1.log = s0.log := d3.trans wlog
    have hct : s1.current_time = (wait_until w s0 (next_time s0)).1.current_time := d1
    rw [hs']
    refine ⟨hq, calls, ?_, ?_, Or.inr ⟨s1, hdrain, r1.trans hct, ?_⟩⟩
    · rw [b1, hlog]
    · intro c hc
      rw [r1]
      exact r4 c (hsame ▸ hc)
    · rw [hq, dq, hstartq] at b2
      simpa using b2

theorem reactions_invoked_as_inserted_witness :
    fan_in_state.reaction_q = [] ∧ fan_in_state.stop_requested = true ∧
      ∃ calls, fan_in_state.log = fast_state.log ++ calls ∧
        (∀ c ∈ calls, c.time = fan_in_state.current_time) :=
  have h := reactions_invoked_as_inserted fan_in_world fan_in 9 fast_state fan_in_state 1
    rfl rfl
  ⟨h.1, rfl, h.2.imp (fun _ hc => ⟨hc.1, hc.2.1⟩)⟩

end Reactor
